import Mathlib

/-!
Verification of the snoopy evidence-assembly pipeline.

Rust strings are modelled as `List Char`, byte strings as `List Nat`
(each element < 256).  The `eth_trie` Merkle-Patricia trie is modelled
structurally: nodes keep their children in memory (the in-memory `MemoryDB`
backend never produces unresolved hash nodes within one session), and proof
items are the nodes themselves rather than their RLP encodings.
-/

/-- Rust `String` / `&str`. -/
abbrev Str := List Char

/-- Byte strings (`Vec<u8>`); every element is a byte value < 256. -/
abbrev Bytes := List Nat

/-- Wrapping unsigned 64-bit subtraction, the semantics of `a - b` on `u64`
in release builds (debug builds panic on underflow). -/
def u64sub (a b : Nat) : Nat := (a + 2 ^ 64 - b % 2 ^ 64) % 2 ^ 64

/-- `x as u32` on a `u64` value: truncation mod `2^32`. -/
def u32cast (a : Nat) : Nat := a % 2 ^ 32

/-- Wrapping unsigned 64-bit addition. -/
def u64add (a b : Nat) : Nat := (a + b) % 2 ^ 64

/-! ## The Merkle-Patricia trie (`eth_trie` crate, in-memory backend)

Keys are nibble lists; a stored key is the nibble expansion of the raw byte
key followed by the terminator nibble `16` (`Nibbles::from_raw(key, true)`).
Branch children are indexed by nibble. -/

/-- A trie node.  `branch` carries its 16 children as a function from the
child index (only indices < 16 are ever populated) plus the optional value
slot; `ext` is an extension node with a shared nibble path. -/
inductive Node where
  | empty : Node
  | leaf (keyEnd : List Nat) (val : Str) : Node
  | ext (pfx : List Nat) (child : Node) : Node
  | branch (children : Nat → Node) (val : Option Str) : Node

/-- `Nibbles::common_prefix`: length of the longest common prefix. -/
def commonLen : List Nat → List Nat → Nat
  | a :: as', b :: bs => if a = b then commonLen as' bs + 1 else 0
  | _, _ => 0

/-- Nibble expansion of a byte string (high nibble first). -/
def toNibbles (bs : Bytes) : List Nat := bs.flatMap (fun b => [b / 16, b % 16])

/-- Update one child of a branch's child table. -/
def updChild (c : Nat → Node) (i : Nat) (n : Node) : Nat → Node :=
  fun j => if j = i then n else c j

/-- All-empty child table of a fresh branch node. -/
def emptyChildren : Nat → Node := fun _ => .empty

/-- The case of `TrieDB::insert_at` in which the search path diverges from an
extension node's prefix at its very first nibble.  The Rust code builds a
one-child branch holding the shortened extension and re-inserts into it; the
re-insertion immediately lands in the branch arm with an empty child, so it is
inlined here.  (`rest = []` makes the Rust code panic indexing `partial.at(0)`;
that case is unreachable for the fixed-length keys used by this program and is
modelled as returning the branch unchanged.) -/
def extSplit (p : List Nat) (sub : Node) (rest : List Nat) (v : Str) : Node :=
  let c0 : Node := if p.length = 1 then sub else .ext (p.drop 1) sub
  let b := updChild emptyChildren (p.headD 0) c0
  match rest with
  | [] => .branch b none
  | i :: rest' =>
    if i = 16 then .branch b (some v)
    else .branch (updChild b i (.leaf rest' v)) none

/-- `TrieDB::insert_at` from the `eth_trie` crate.  `ks` is the remaining
nibble path of the key being inserted.  The two non-structural recursions of
the Rust code (extension-prefix divergence, extension split) are inlined via
`extSplit`; everything else is a literal transcription.  Where the Rust code
would panic on an out-of-range nibble index the model picks a default, with
the offending case unreachable for the terminator-ended fixed-length keys this
program inserts. -/
def insertAt : Node → List Nat → Str → Node
  | .empty, ks, v => .leaf ks v
  | .leaf k0 v0, ks, v =>
    let m := commonLen ks k0
    if m = k0.length then .leaf k0 v
    else
      let b1 := updChild emptyChildren (k0.getD m 0) (.leaf (k0.drop (m + 1)) v0)
      let b2 := updChild b1 (ks.getD m 0) (.leaf (ks.drop (m + 1)) v)
      if m = 0 then .branch b2 none
      else .ext (ks.take m) (.branch b2 none)
  | .branch c val, ks, v =>
    match ks with
    | [] => .branch c val
    | i :: rest =>
      if i = 16 then .branch c (some v)
      else .branch (updChild c i (insertAt (c i) rest v)) val
  | .ext p sub, ks, v =>
    let m := commonLen ks p
    if m = 0 then extSplit p sub ks v
    else if m = p.length then .ext p (insertAt sub (ks.drop m) v)
    else .ext (p.take m) (extSplit (p.drop m) sub (ks.drop m) v)

/-- `Trie::insert` with a raw byte key: nibble expansion plus terminator. -/
def insertTrie (t : Node) (key : Bytes) (v : Str) : Node :=
  insertAt t (toNibbles key ++ [16]) v

/-- `TrieDB::get_path_at`: the nodes visited below `n` while walking the
nibble path `ks`, deepest node first (the caller appends the root itself). -/
def getPathAt : Node → List Nat → List Node
  | .empty, _ => []
  | .leaf _ _, _ => []
  | .branch c _, ks =>
    match ks with
    | [] => []
    | i :: rest => if i = 16 then [] else getPathAt (c i) rest ++ [c i]
  | .ext p sub, ks =>
    if commonLen ks p = p.length then getPathAt sub (ks.drop p.length) ++ [sub]
    else []

/-- `Trie::get_proof`: walk the nibble path of the raw key (with terminator),
append the root unless it is empty, and reverse so the root comes first. -/
def get_proof (t : Node) (key : Bytes) : List Node :=
  let path := getPathAt t (toNibbles key ++ [16])
  match t with
  | .empty => path.reverse
  | _ => (path ++ [t]).reverse

/-- `rlp::Rlp::val_at::<String>(1)` applied to the encoding of a node.  A leaf
encodes as the two-item list `[compact(keyEnd), value]`, so item 1 is its
value.  For the other node shapes item 1 is a node reference (or absent),
which does not decode as one of the UTF-8 values this program stores; the
model returns an error there (a branch whose child 1 is empty encodes that
child as the empty RLP string, which decodes as `""`). -/
def rlpValAt1 : Node → Except String Str
  | .leaf _ v => .ok v
  | .branch c _ =>
    match c 1 with
    | .empty => .ok []
    | _ => .error "rlp decode failure"
  | .ext _ _ => .error "rlp decode failure"
  | .empty => .error "rlp decode failure"

/-! ### Ghost semantics of the trie (proof tooling, not part of the source) -/

/-- The map semantics of a trie node: the value stored under the remaining
nibble path `ks`, if any. -/
def lookupN : Node → List Nat → Option Str
  | .empty, _ => none
  | .leaf k v, ks => if ks = k then some v else none
  | .branch c val, ks =>
    match ks with
    | [] => none
    | i :: rest =>
      if i = 16 then (if rest = [] then val else none)
      else if i < 16 then lookupN (c i) rest else none
  | .ext p sub, ks =>
    if ks.take p.length = p then lookupN sub (ks.drop p.length) else none

/-- The last node of the proof produced along path `ks`: the deepest node
`getPathAt` reaches, or the root itself when the walk stops immediately. -/
def walkEnd (n : Node) (ks : List Nat) : Node :=
  match getPathAt n ks with
  | [] => n
  | x :: _ => x

/-- A stored key: a list of nibbles (< 16) followed by the terminator 16. -/
def goodKey (k : List Nat) : Prop := ∃ body, k = body ++ [16] ∧ ∀ x ∈ body, x < 16

/-- Structural well-formedness of a trie whose keys all have nibble length
`L` (terminator included): branch value slots are unused, every branch has at
least two children, extension prefixes are nonempty terminator-free paths to
branches, and leaves hold well-formed key remainders of the right length. -/
def TrieWF : Node → Nat → Prop
  | .empty, _ => True
  | .leaf k _, L => k.length = L ∧ goodKey k
  | .branch c val, L =>
    val = none ∧ 2 ≤ L ∧
      (∃ i j, i < 16 ∧ j < 16 ∧ i ≠ j ∧ c i ≠ .empty ∧ c j ≠ .empty) ∧
      (∀ i, i < 16 → TrieWF (c i) (L - 1))
  | .ext p sub, L =>
    p ≠ [] ∧ (∀ x ∈ p, x < 16) ∧ p.length + 2 ≤ L ∧
      (∃ c v, sub = .branch c v) ∧ TrieWF sub (L - p.length)

/-! ## Assignment snapshots and the trie builder (`lib.rs`) -/

/-- One chunk of a dataset in a decoded assignment snapshot. -/
structure Chunk where
  id : Str
  worker_indexes : List Nat
deriving DecidableEq

/-- One dataset of an assignment snapshot. -/
structure Dataset where
  id : Str
  chunks : List Chunk
deriving DecidableEq

/-- A decoded assignment snapshot.  `workers` is the flat table of worker ids,
already base58-encoded (the Rust code encodes each `worker_id` with `bs58`
before any use). -/
structure Assignment where
  workers : List Str
  datasets : List Dataset
deriving DecidableEq

/-- Lexicographic byte-order comparison backing `Vec::<String>::sort()`. -/
def lexLeB : Str → Str → Bool
  | [], _ => true
  | _ :: _, [] => false
  | a :: as', b :: bs => if a = b then lexLeB as' bs else decide (a < b)

/-- The worker ids assigned to one chunk, in index order
(`workers[idx as usize]`; an out-of-range index, on which Rust would panic,
is modelled by the empty string). -/
def chunkWorkers (a : Assignment) (ch : Chunk) : List Str :=
  ch.worker_indexes.map (fun idx => a.workers.getD idx [])

/-- The chunk's worker ids after `workers.sort()`. -/
def chunkWorkersSorted (a : Assignment) (ch : Chunk) : List Str :=
  (chunkWorkers a ch).mergeSort lexLeB

/-- The trie value stored for one chunk: `workers.join("|")` after sorting. -/
def chunkVal (a : Assignment) (ch : Chunk) : Str :=
  List.intercalate ['|'] (chunkWorkersSorted a ch)

/-- `populate_trie` from `lib.rs`, after the snapshot has been fetched and
decoded (transport and gzip are external collaborators).  `hash` stands for
keccak-256 of the composite key string; for every (dataset, chunk) pair the
sorted joined worker list is inserted under the full 32-byte hash of
`"{dataset}|{chunk}"`. -/
def populate_trie (hash : Str → Bytes) (a : Assignment) (t : Node) : Node :=
  a.datasets.foldl (fun t ds =>
    ds.chunks.foldl (fun t ch =>
      insertTrie t (hash (ds.id ++ '|' :: ch.id)) (chunkVal a ch)) t) t

/-- The (key string, chunk) pairs `populate_trie` iterates over, in order. -/
def snapshotEntries (a : Assignment) : List (Str × Chunk) :=
  a.datasets.flatMap (fun ds => ds.chunks.map (fun ch => (ds.id ++ '|' :: ch.id, ch)))

/-- Folding a list of raw (byte key, value) insertions into a trie. -/
def foldIns (t : Node) (l : List (Bytes × Str)) : Node :=
  l.foldl (fun t kv => insertTrie t kv.1 kv.2) t

/-- `make_mpt_proof` from `lib.rs`: hash the composite key, truncate the hash
to its first 8 bytes, request the trie proof along that truncated key,
decode the terminal proof node's item 1 as the stored value, split it on
`"|"` and demand that `worker_id` is among the parts. -/
def make_mpt_proof (hash : Str → Bytes) (t : Node)
    (dataset_id chunk_id worker_id : Str) : Except String (List Node) :=
  let key := dataset_id ++ '|' :: chunk_id
  let bytes := hash key
  let trie_key := bytes.take 8
  let mpt_proof := get_proof t trie_key
  match mpt_proof.getLast? with
  | none => .error "Empty leaf in proof"
  | some leafNode =>
    match rlpValAt1 leafNode with
    | .error e => .error e
    | .ok payload =>
      let parts := payload.splitOn '|'
      if worker_id ∈ parts then .ok mpt_proof else .error "Wrong assignment"

/-! ## Log rows and the evidence pipeline (`lib.rs`) -/

/-- `QueryResult` (`repr(u8)` enum). -/
inductive QueryResult where
  | Ok | BadRequest | ServerError | NotFound | ServerOverloaded | TooManyRequests
deriving DecidableEq

/-- `QueryExecutedRow`: the columns selected from `worker_query_logs`. -/
structure QueryExecutedRow where
  query_id : Str
  client_id : Str
  worker_id : Str
  dataset_id : Str
  from_block : Option Nat
  to_block : Option Nat
  chunk_id : Str
  query : Str
  query_hash : Bytes
  result : QueryResult
  output_hash : Bytes
  last_block : Option Nat
  error_msg : Str
  client_signature : Bytes
  client_timestamp : Nat
  request_id : Str
deriving DecidableEq

/-- `SignatureRow`: the columns selected from `portal_logs`. -/
structure SignatureRow where
  query_id : Str
  worker_signature : Bytes
  result_hash : Bytes
deriving DecidableEq

/-- One stored row of the `worker_query_logs` table: the selected columns
plus the `worker_timestamp` column referenced only in `WHERE` clauses. -/
structure LogEntry where
  worker_timestamp : Nat
  row : QueryExecutedRow
deriving DecidableEq

/-- One stored row of the `portal_logs` table. -/
structure SigEntry where
  collector_timestamp : Nat
  row : SignatureRow
deriving DecidableEq

/-- `clickhouse::query::Query::fetch_one`: the first returned row, or a
`RowNotFound` error when the result set is empty.  Extra rows are ignored. -/
def fetch_one {α : Type} (rows : List α) : Except String α :=
  match rows with
  | [] => .error "RowNotFound"
  | r :: _ => .ok r

/-- SQL `col = ?` where the parameter is an `Option`: binding `None` binds
`NULL`, and `col = NULL` holds for no row. -/
def sqlOptEq (column : Option Nat) (param : Option Nat) : Bool :=
  match param with
  | none => false
  | some x => column = some x

/-- The `WHERE` clause of the first (original-query) lookup of
`get_siblings_queries`: both timestamp bounds are computed in wrapping `u64`
arithmetic and then truncated by `as u32`. -/
def origQueryPred (query_id : Str) (ts tol : Nat) (e : LogEntry) : Bool :=
  decide (u32cast (u64sub ts tol) < e.worker_timestamp) &&
  decide (e.worker_timestamp < u32cast (u64add ts tol)) &&
  decide (e.row.query_id = query_id)

/-- Step 1 of `get_siblings_queries`: `fetch_one` on the original-query
filter. -/
def getSiblingsStep1 (logs : List LogEntry) (query_id : Str) (ts tol : Nat) :
    Except String QueryExecutedRow :=
  fetch_one ((logs.filter (origQueryPred query_id ts tol)).map (·.row))

/-- The `WHERE` clause of the sibling lookup: wider window (no `u32` cast
here), equal query-content hash (hex equality of byte strings is byte
equality), equal block range (`NULL` never matches, `sqlOptEq`), and a
successful result code. -/
def siblingPred (orig : QueryExecutedRow) (ts range : Nat) (e : LogEntry) : Bool :=
  decide (u64sub ts range < e.worker_timestamp) &&
  decide (e.worker_timestamp < u64add ts range) &&
  decide (e.row.query_hash = orig.query_hash) &&
  sqlOptEq e.row.from_block orig.from_block &&
  sqlOptEq e.row.to_block orig.to_block &&
  decide (e.row.result = QueryResult.Ok)

/-- `Vec::dedup_by` tail: drop each row whose query id equals the previously
retained row's id (first of each run is kept). -/
def dedupGo (prev : QueryExecutedRow) : List QueryExecutedRow → List QueryExecutedRow
  | [] => []
  | b :: rest => if b.query_id = prev.query_id then dedupGo prev rest else b :: dedupGo b rest

/-- `sort_by(query_id)` followed by `dedup_by(query_id)`. -/
def dedupByQueryId : List QueryExecutedRow → List QueryExecutedRow
  | [] => []
  | a :: rest => a :: dedupGo a rest

/-- `get_siblings_queries` from `lib.rs`, over a modelled `worker_query_logs`
table: fetch the single original row, fetch all rows with the same content
hash and block range in the wider window, then sort by query id and drop
consecutive duplicates. -/
def get_siblings_queries (logs : List LogEntry) (query_id : Str) (ts tol range : Nat) :
    Except String (List QueryExecutedRow) :=
  match getSiblingsStep1 logs query_id ts tol with
  | .error e => .error e
  | .ok orig =>
    let sib := (logs.filter (siblingPred orig ts range)).map (·.row)
    .ok (dedupByQueryId (sib.mergeSort (fun a b => lexLeB a.query_id b.query_id)))

/-- Association-list model of `HashMap` insertion: replace the entry with the
same key, or append a fresh one. -/
def mapUpsert {α : Type} (m : List (Str × α)) (k : Str) (v : α) : List (Str × α) :=
  if m.any (fun e => decide (e.1 = k)) then
    m.map (fun e => if e.1 = k then (k, v) else e)
  else m ++ [(k, v)]

/-- Association-list model of `HashMap::get`. -/
def mapLookup {α : Type} (m : List (Str × α)) (k : Str) : Option α :=
  (m.find? (fun e => decide (e.1 = k))).map (·.2)

/-- Association-list model of `HashMap::contains_key`. -/
def mapContains {α : Type} (m : List (Str × α)) (k : Str) : Bool :=
  m.any (fun e => decide (e.1 = k))

/-- `get_assignment_id_map` from `lib.rs`: for every sibling row, query the
commitment contract at the row's client timestamp truncated to seconds
(`getId`, an external chain read returning an id string, `""` meaning none);
a transport error is fatal, an empty id drops the row from the map. -/
def get_assignment_id_map (rows : List QueryExecutedRow) (getId : Nat → Except String Str)
    (acc : List (Str × Str)) : Except String (List (Str × Str)) :=
  match rows with
  | [] => .ok acc
  | r :: rest =>
    match getId (r.client_timestamp / 1000) with
    | .error e => .error e
    | .ok res =>
      get_assignment_id_map rest getId
        (if res = [] then acc else mapUpsert acc r.query_id res)

/-- The `sort_by` comparator of `filter_eligible_queries`, as the
"`cmp(a,b) != Greater`" ordering a stable sort consumes: the disputed query
id sorts first, remaining rows by client timestamp descending. -/
def eligibleLe (query_id : Str) (a b : QueryExecutedRow) : Bool :=
  if a.query_id = query_id then true
  else if b.query_id = query_id then false
  else decide (b.client_timestamp ≤ a.client_timestamp)

/-- `filter_eligible_queries` from `lib.rs`: keep rows whose query id is in
the assignment-id map, then stable-sort with `eligibleLe`. -/
def filter_eligible_queries (sibling_queries : List QueryExecutedRow)
    (assignment_id_map : List (Str × Str)) (query_id : Str) : List QueryExecutedRow :=
  (sibling_queries.filter (fun row => mapContains assignment_id_map row.query_id)).mergeSort
    (eligibleLe query_id)

/-- The `WHERE` clause of the signature lookup in `get_signatures`. -/
def sigPred (ts range : Nat) (qids : List Str) (e : SigEntry) : Bool :=
  decide (u64sub ts range < e.collector_timestamp) &&
  decide (e.collector_timestamp < u64add ts range) &&
  qids.contains e.row.query_id

/-- Bump the tally of one result hash
(`*result_count.entry(hash).or_default() += 1`), keeping first-seen order. -/
def bumpCount (m : List (Bytes × Nat)) (k : Bytes) : List (Bytes × Nat) :=
  if m.any (fun e => decide (e.1 = k)) then
    m.map (fun e => if e.1 = k then (e.1, e.2 + 1) else e)
  else m ++ [(k, 1)]

/-- Tally of result hashes over the fetched signature rows. -/
def countHashes (rows : List SignatureRow) (acc : List (Bytes × Nat)) : List (Bytes × Nat) :=
  match rows with
  | [] => acc
  | r :: rest => countHashes rest (bumpCount acc r.result_hash)

/-- `max_by_key` over the tally: `Iterator::max_by_key` returns the last of
several equally-maximal elements; the enumeration order models the arbitrary
`HashMap` iteration order. -/
def pluralityOf (counts : List (Bytes × Nat)) : Option (Bytes × Nat) :=
  counts.foldl
    (fun acc e =>
      match acc with
      | none => some e
      | some b => if b.2 ≤ e.2 then some e else some b)
    none

/-- `collect::<HashMap<_,_>>()` over `(query_id, (result_hash, signature))`
pairs: later pairs overwrite earlier ones with the same key. -/
def collectSig (rows : List SignatureRow) (acc : List (Str × (Bytes × Bytes))) :
    List (Str × (Bytes × Bytes)) :=
  match rows with
  | [] => acc
  | r :: rest => collectSig rest (mapUpsert acc r.query_id (r.result_hash, r.worker_signature))

/-- `get_signatures` from `lib.rs`, over a modelled `portal_logs` table:
fetch signature rows for the eligible query ids inside the window, tally the
result hashes, pick the plurality hash, keep rows matching it or carrying the
disputed (original) query id, and collect into a map keyed by query id.
Fails when no signature rows were fetched at all. -/
def get_signatures (portal : List SigEntry) (ts range : Nat)
    (eligible_queries : List QueryExecutedRow) (original_query_id : Str) :
    Except String (List (Str × (Bytes × Bytes))) :=
  let signatures := (portal.filter (sigPred ts range (eligible_queries.map (·.query_id)))).map (·.row)
  let result_count := countHashes signatures []
  match pluralityOf result_count with
  | none => .error "Plurality not found"
  | some plurality =>
    .ok (collectSig (signatures.filter
      (fun row => decide (row.result_hash = plurality.1) ||
        decide (row.query_id = original_query_id))) [])

/-! ## Evidence bundles (`make_proof_data`, `lib.rs`) -/

/-- `sqd_messages::Range`. -/
structure BlockRange where
  begin_ : Nat
  end_ : Nat
deriving DecidableEq

/-- `sqd_messages::Query` as reconstructed by `make_proof_data`. -/
structure Query where
  request_id : Str
  query_id : Str
  dataset : Str
  query : Str
  block_range : Option BlockRange
  chunk_id : Str
  timestamp_ms : Nat
  signature : Bytes
deriving DecidableEq

/-- `sqd_messages::QueryOkSummary`. -/
structure QueryOkSummary where
  uncompressed_data_size : Nat
  data_hash : Bytes
  last_block : Nat
deriving DecidableEq

/-- `sqd_messages::query_finished::Result`; only the `Ok` variant is used by
this program. -/
inductive QueryFinishedResult where
  | Ok (summary : QueryOkSummary)
deriving DecidableEq

/-- `sqd_messages::QueryFinished` as reconstructed by `make_proof_data`. -/
structure QueryFinished where
  query_id : Str
  result : Option QueryFinishedResult
  worker_id : Str
  total_time_micros : Nat
  worker_signature : Bytes
deriving DecidableEq

/-- `PrivateProofData`: one self-contained evidence bundle. -/
structure PrivateProofData where
  query : Query
  query_result : QueryFinished
  mpt_proof : List Node
  worker_id : Str
  client_id : Str
  tree_root : Bytes

/-- `make_proof_data` from `lib.rs`.  The signature machinery is external
(`libp2p` peer-id parsing and the two `sqd_messages` verifiers), passed in as
oracles.  The outer `Option` models totality: `none` is the panic of
`row.last_block.unwrap()`, which Rust reaches once the block range is present
and the query signature verifies; every other failure is an error return. -/
def make_proof_data (parsePeer : Str → Option Str)
    (verifyQuery : Query → Str → Str → Bool) (verifyResult : QueryFinished → Bool)
    (row : QueryExecutedRow) (result_hash worker_signature : Bytes)
    (tree_root : Bytes) (mpt_proof : List Node) : Option (Except String PrivateProofData) :=
  match row.from_block with
  | none => some (.error "fromBlock not found for query")
  | some fb =>
    match row.to_block with
    | none => some (.error "toBlock not found for query")
    | some tb =>
      let query : Query :=
        { request_id := row.request_id, query_id := row.query_id,
          dataset := row.dataset_id, query := row.query,
          block_range := some { begin_ := fb, end_ := tb }, chunk_id := row.chunk_id,
          timestamp_ms := row.client_timestamp, signature := row.client_signature }
      match parsePeer row.client_id with
      | none => some (.error "invalid client peer id")
      | some clientPeer =>
        match parsePeer row.worker_id with
        | none => some (.error "invalid worker peer id")
        | some workerPeer =>
          if verifyQuery query clientPeer workerPeer then
            match row.last_block with
            | none => none
            | some lb =>
              let internal_result : QueryOkSummary :=
                { uncompressed_data_size := 0, data_hash := result_hash, last_block := lb }
              let query_result : QueryFinished :=
                { query_id := row.query_id, result := some (.Ok internal_result),
                  worker_id := row.worker_id, total_time_micros := 0,
                  worker_signature := worker_signature }
              if verifyResult query_result then
                some (.ok
                  { query := query, query_result := query_result,
                    mpt_proof := mpt_proof, worker_id := row.worker_id,
                    client_id := row.client_id, tree_root := tree_root })
              else some (.error "Query Result signature verification failed")
          else some (.error "Query signature verification failed")

/-! ## The task orchestrator (`main.rs`) -/

/-- `NUMBER_OF_EVIDENCES_IN_ZK_PROOF`. -/
def NUMBER_OF_EVIDENCES_IN_ZK_PROOF : Nat := 5

/-- `TaskStatus`. -/
inductive TaskStatus where
  | NotFound | Pending | Running | Completed | Failed
deriving DecidableEq

/-- `Task` from `main.rs` (ids are opaque; modelled as `Nat`; the name
avoids colliding with the core `Task` type). -/
structure TaskRec where
  id : Nat
  query_id : Str
  ts : Nat
  status : TaskStatus
  comment : Option String
deriving DecidableEq

/-- The configuration fields `run_loop` reads. -/
structure Config where
  ts_tolerance : Nat
  ts_search_range : Nat
  network : Str

/-- The external collaborators of one `run_loop` iteration: the two
analytics tables, the chain reads/writes, snapshot download+decode, the
`eth_trie` root hash, keccak-256, the signature machinery and the prover. -/
structure Oracles where
  logs : List LogEntry
  portal : List SigEntry
  getIdByTs : Nat → Except String Str
  fetchAssignment : Str → Except String Assignment
  rootHash : Node → Except String Bytes
  keccak : Str → Bytes
  parsePeer : Str → Option Str
  verifyQuery : Query → Str → Str → Bool
  verifyResult : QueryFinished → Bool
  prover : List PrivateProofData → Except String (Bytes × Bytes)
  postProof : Bytes → Bytes → Except String Bytes

/-- The snapshot URL built per evidence row. -/
def assignmentUrl (network assignment_id : Str) : Str :=
  "https://metadata.sqd-datasets.io/assignments/".toList ++ network ++
    '/' :: assignment_id ++ ".fb.1.gz".toList

/-- Lower-case hex rendering of a byte string (transaction reference). -/
def hexDigit (n : Nat) : Char := if n < 10 then Char.ofNat (48 + n) else Char.ofNat (87 + n)

/-- Hex string of a byte string. -/
def hexStr (bs : Bytes) : String :=
  String.mk (bs.flatMap (fun b => [hexDigit (b / 16 % 16), hexDigit (b % 16)]))

/-- State of the evidence-assembly loop: worker ids already used, bundles
collected so far, status updates issued so far, and whether the loop panicked
(`make_proof_data` hitting its `unwrap`). -/
structure LoopState where
  used : List Str
  proofs : List PrivateProofData
  updates : List (TaskStatus × Option String)
  panicked : Bool

/-- One iteration of the evidence-assembly `for` loop of `run_loop`: stop
once the quorum size is reached (`break` is modelled by ignoring the
remaining rows, which issue no further effects), skip rows whose worker id
was already used or that lack a consensus signature or assignment id, rebuild
the trie for the row's assignment, compute root and membership proof, and
assemble the bundle; every per-row failure skips the row. -/
def evidenceStep (o : Oracles) (cfg : Config) (amap : List (Str × Str))
    (sigs : List (Str × (Bytes × Bytes))) (st : LoopState) (row : QueryExecutedRow) :
    LoopState :=
  if st.panicked then st
  else if NUMBER_OF_EVIDENCES_IN_ZK_PROOF ≤ st.proofs.length then st
  else if st.used.contains row.worker_id then st
  else
    match mapLookup sigs row.query_id with
    | none => st
    | some rh_ws =>
      match mapLookup amap row.query_id with
      | none => st
      | some assignment_id =>
        match o.fetchAssignment (assignmentUrl cfg.network assignment_id) with
        | .error _ => st
        | .ok assignment =>
          let trie := populate_trie o.keccak assignment .empty
          match o.rootHash trie with
          | .error _ => st
          | .ok tree_root =>
            match make_mpt_proof o.keccak trie row.dataset_id row.chunk_id row.worker_id with
            | .error _ => st
            | .ok mpt_proof =>
              match make_proof_data o.parsePeer o.verifyQuery o.verifyResult row
                  rh_ws.1 rh_ws.2 tree_root mpt_proof with
              | none => { st with panicked := true }
              | some (.error _) => st
              | some (.ok proof) =>
                { used := st.used ++ [row.worker_id],
                  proofs := st.proofs ++ [proof],
                  updates := st.updates ++ [(.Running,
                    some ("Got proofs " ++ toString (st.proofs.length + 1) ++ "/" ++
                      toString NUMBER_OF_EVIDENCES_IN_ZK_PROOF))],
                  panicked := false }

/-- The whole evidence-assembly loop over the ordered eligible rows. -/
def evidenceLoop (o : Oracles) (cfg : Config) (amap : List (Str × Str))
    (sigs : List (Str × (Bytes × Bytes))) (eligible : List QueryExecutedRow)
    (st : LoopState) : LoopState :=
  eligible.foldl (evidenceStep o cfg amap sigs) st

/-- The observable outcome of processing one task: the ordered list of
`set_task_status` calls issued after the task was picked, the argument lists
of every prover invocation, and whether the processing thread panicked. -/
structure RunResult where
  updates : List (TaskStatus × Option String)
  proverCalls : List (List PrivateProofData)
  panicked : Bool

/-- The body of `run_loop` for one picked pending task (`main.rs`): set
`Running`, run sibling discovery, assignment resolution, eligibility
filtering and signature consensus (each failure → `Failed` and stop), apply
the quorum gate, run the evidence loop, hand the collected bundles to the
prover, submit the proof, and record the terminal status. -/
def processTask (o : Oracles) (cfg : Config) (task : TaskRec) : RunResult :=
  let u0 : List (TaskStatus × Option String) := [(.Running, none)]
  match get_siblings_queries o.logs task.query_id task.ts cfg.ts_tolerance
      cfg.ts_search_range with
  | .error err =>
    ⟨u0 ++ [(.Failed, some ("Got " ++ err ++ " while searching for siblings"))], [], false⟩
  | .ok sibling_queries =>
    let u1 := u0 ++ [(.Running, some "Got siblings")]
    match get_assignment_id_map sibling_queries o.getIdByTs [] with
    | .error err =>
      ⟨u1 ++ [(.Failed, some ("Got " ++ err ++ " while quering contract"))], [], false⟩
    | .ok assignment_id_map =>
      let u2 := u1 ++ [(.Running, some "Got assignment id map")]
      let eligible_queries :=
        filter_eligible_queries sibling_queries assignment_id_map task.query_id
      match get_signatures o.portal task.ts cfg.ts_search_range eligible_queries
          task.query_id with
      | .error err =>
        ⟨u2 ++ [(.Failed, some ("Got " ++ err ++ " while getting signatures"))], [], false⟩
      | .ok signatures =>
        let u3 := u2 ++ [(.Running, some "Got signatures")]
        if eligible_queries.length < NUMBER_OF_EVIDENCES_IN_ZK_PROOF ∨
            signatures.length < NUMBER_OF_EVIDENCES_IN_ZK_PROOF then
          ⟨u3 ++ [(.Failed, some "Not enough evidence to create fraud proof")], [], false⟩
        else
          let st := evidenceLoop o cfg assignment_id_map signatures eligible_queries
            ⟨[], [], u3, false⟩
          if st.panicked then ⟨st.updates, [], true⟩
          else
            match o.prover st.proofs with
            | .error err =>
              ⟨st.updates ++ [(.Failed, some ("Failed to create zk proof: " ++ err))],
                [st.proofs], false⟩
            | .ok pv =>
              let u4 := st.updates ++ [(.Running, some "Got zk proof")]
              match o.postProof pv.1 pv.2 with
              | .error err =>
                ⟨u4 ++ [(.Failed, some ("Failed to post proof: " ++ err))],
                  [st.proofs], false⟩
              | .ok res =>
                ⟨u4 ++ [(.Completed, some ("Transaction: " ++ hexStr res))],
                  [st.proofs], false⟩

/-- The shared task collection (`HashMap<Uuid, Task>` behind the mutex),
modelled as an association list; the list order stands for the map's
arbitrary iteration order. -/
abbrev TaskMap := List (Nat × TaskRec)

/-- Read one task. -/
def lookupTask (m : TaskMap) (id : Nat) : Option TaskRec :=
  (m.find? (fun e => decide (e.1 = id))).map (·.2)

/-- `set_task_status`: overwrite status and comment of the given task.  (The
Rust code `unwrap`s the entry; the orchestrator only calls this for the id it
just picked, so the entry exists — absent ids are modelled as a no-op.) -/
def setTaskStatus (m : TaskMap) (id : Nat) (st : TaskStatus) (comment : Option String) :
    TaskMap :=
  m.map (fun e => if e.1 = id then (e.1, { e.2 with status := st, comment := comment }) else e)

/-- Apply a sequence of `set_task_status` calls for one task. -/
def applyUpdates (m : TaskMap) (id : Nat) (us : List (TaskStatus × Option String)) : TaskMap :=
  us.foldl (fun m u => setTaskStatus m id u.1 u.2) m

/-- The scan for the first `Pending` task at the top of `run_loop`. -/
def pickPending (m : TaskMap) : Option TaskRec :=
  (m.find? (fun e => decide (e.2.status = .Pending))).map (·.2)

/-- The `POST /tasks` handler: insert a fresh task in `Pending` state
(`HashMap::insert` replaces an existing entry with the same id). -/
def submitTask (m : TaskMap) (id : Nat) (query_id : Str) (ts : Nat) : TaskMap :=
  if m.any (fun e => decide (e.1 = id)) then
    m.map (fun e => if e.1 = id then (id, ⟨id, query_id, ts, .Pending, none⟩) else e)
  else m ++ [(id, ⟨id, query_id, ts, .Pending, none⟩)]

/-- One iteration of the orchestrator loop: pick the first pending task (if
none, the loop just sleeps) and apply every status update its processing
issues. -/
def iterateLoop (o : Oracles) (cfg : Config) (m : TaskMap) : TaskMap :=
  match pickPending m with
  | none => m
  | some task => applyUpdates m task.id (processTask o cfg task).updates

/-- Concrete snapshot for exercising the round-trip theorem. -/
def c1Chunk : Chunk := { id := "c1".toList, worker_indexes := [1, 0] }

/-- Concrete dataset. -/
def c1Dataset : Dataset := { id := "d1".toList, chunks := [c1Chunk] }

/-- Concrete assignment. -/
def c1Assignment : Assignment :=
  { workers := ["wA".toList, "wB".toList], datasets := [c1Dataset] }

/-- A toy 32-byte hash, standing in for keccak-256 in the witness. -/
def c1Hash : Str → Bytes := fun s => (List.range 32).map (fun i => (i + 7 * s.length) % 256)

/-- Row constructor for concrete instances. -/
def mkRow (qid wid : Str) (ts : Nat) (fb tb lb : Option Nat) (qh : Bytes) : QueryExecutedRow :=
  { query_id := qid, client_id := "c".toList, worker_id := wid, dataset_id := "d".toList,
    from_block := fb, to_block := tb, chunk_id := "ch".toList, query := [], query_hash := qh,
    result := .Ok, output_hash := [], last_block := lb, error_msg := [],
    client_signature := [], client_timestamp := ts, request_id := [] }

/-- The signature rows fetched by `get_signatures` (its first `let`). -/
def fetchedSigs (portal : List SigEntry) (ts range : Nat)
    (eligible_queries : List QueryExecutedRow) : List SignatureRow :=
  (portal.filter (sigPred ts range (eligible_queries.map (·.query_id)))).map (·.row)

/-- Concrete rows for the duplicate-disputed-id scenario: two rows carry the
disputed query id `"d"` (client timestamp 0) and one carries `"x"`
(client timestamp 5). -/
def c5Rows : List QueryExecutedRow :=
  [mkRow "d".toList "w1".toList 0 none none none [],
   mkRow "d".toList "w2".toList 0 none none none [],
   mkRow "x".toList "w3".toList 5 none none none []]

/-- An assignment-id map containing both query ids of `c5Rows`. -/
def c5Map : List (Str × Str) :=
  [("d".toList, "i1".toList), ("x".toList, "i2".toList)]

/-- The evidence loop's bookkeeping invariant: the collected bundles'
worker ids are exactly the `used_keys` set, which has no duplicates. -/
def usedInv (st : LoopState) : Prop :=
  st.proofs.map (fun p => p.worker_id) = st.used ∧ st.used.Nodup

/-- The one queried row of the quorum-gate scenario; its worker timestamp
(100) sits strictly inside both search windows. -/
def c3Row : QueryExecutedRow := mkRow "q".toList "w".toList 0 (some 1) (some 2) (some 3) [7]

/-- A log table holding exactly the one row. -/
def c3Logs : List LogEntry := [⟨100, c3Row⟩]

/-- A portal table with one matching signature row. -/
def c3Portal : List SigEntry := [⟨100, ⟨"q".toList, [9], [8]⟩⟩]

/-- Oracles for the quorum-gate scenario: the two tables above, a constant
assignment-id read, and unused collaborators. -/
def c3O : Oracles :=
  { logs := c3Logs, portal := c3Portal,
    getIdByTs := fun _ => .ok "i".toList,
    fetchAssignment := fun _ => .error "unused",
    rootHash := fun _ => .error "unused",
    keccak := fun _ => [],
    parsePeer := fun _ => none,
    verifyQuery := fun _ _ _ => false,
    verifyResult := fun _ => false,
    prover := fun _ => .error "unused",
    postProof := fun _ _ => .error "unused" }

/-- Tolerance 50, search range 60. -/
def c3Cfg : Config := ⟨50, 60, "net".toList⟩

/-- The disputed task of the scenario. -/
def c3Task : TaskRec := ⟨0, "q".toList, 100, .Pending, none⟩

/-- Five sibling rows with distinct query ids `a`..`e` and distinct worker
ids, identical content hash and block range; the disputed id is `a`. -/
def c2Rows : List QueryExecutedRow :=
  [mkRow "a".toList "v".toList 0 (some 1) (some 2) (some 3) [7],
   mkRow "b".toList "w".toList 0 (some 1) (some 2) (some 3) [7],
   mkRow "c".toList "x".toList 0 (some 1) (some 2) (some 3) [7],
   mkRow "d".toList "y".toList 0 (some 1) (some 2) (some 3) [7],
   mkRow "e".toList "z".toList 0 (some 1) (some 2) (some 3) [7]]

/-- The log table: every row at worker timestamp 100 (inside both windows). -/
def c2Logs : List LogEntry := c2Rows.map (fun r => ⟨100, r⟩)

/-- The portal table: one signature row per query id, all with the same
result hash, so all five survive consensus. -/
def c2Portal : List SigEntry :=
  [⟨100, ⟨"a".toList, [9], [8]⟩⟩, ⟨100, ⟨"b".toList, [9], [8]⟩⟩,
   ⟨100, ⟨"c".toList, [9], [8]⟩⟩, ⟨100, ⟨"d".toList, [9], [8]⟩⟩,
   ⟨100, ⟨"e".toList, [9], [8]⟩⟩]

/-- The assignment-id map the constant chain read produces. -/
def c2Amap : List (Str × Str) :=
  [("a".toList, "i".toList), ("b".toList, "i".toList), ("c".toList, "i".toList),
   ("d".toList, "i".toList), ("e".toList, "i".toList)]

/-- The consensus signature map: all five ids with the plurality hash. -/
def c2Sigs : List (Str × (Bytes × Bytes)) :=
  [("a".toList, ([8], [9])), ("b".toList, ([8], [9])), ("c".toList, ([8], [9])),
   ("d".toList, ([8], [9])), ("e".toList, ([8], [9]))]

/-- Oracles of the empty-evidence scenario: quorum passes but every snapshot
download fails, so no bundle is ever assembled. -/
def c2O : Oracles :=
  { logs := c2Logs, portal := c2Portal,
    getIdByTs := fun _ => .ok "i".toList,
    fetchAssignment := fun _ => .error "network error",
    rootHash := fun _ => .error "unused",
    keccak := fun _ => [],
    parsePeer := fun _ => none,
    verifyQuery := fun _ _ _ => false,
    verifyResult := fun _ => false,
    prover := fun _ => .error "proving failed",
    postProof := fun _ _ => .error "unused" }

/-- Tolerance 50, search range 60. -/
def c2Cfg : Config := ⟨50, 60, "net".toList⟩

/-- The disputed task of the empty-evidence scenario. -/
def c2Task : TaskRec := ⟨0, "a".toList, 100, .Pending, none⟩
/-! ### Basic facts about the helpers -/

theorem commonLen_le_left : ∀ a b : List Nat, commonLen a b ≤ a.length := by
  intro a
  induction a with
  | nil => intro b; cases b <;> simp [commonLen]
  | cons x xs ih =>
    intro b
    cases b with
    | nil => simp [commonLen]
    | cons y ys =>
      simp only [commonLen]
      split
      · simpa using ih ys
      · simp

theorem commonLen_le_right : ∀ a b : List Nat, commonLen a b ≤ b.length := by
  intro a
  induction a with
  | nil => intro b; cases b <;> simp [commonLen]
  | cons x xs ih =>
    intro b
    cases b with
    | nil => simp [commonLen]
    | cons y ys =>
      simp only [commonLen]
      split
      · simpa using ih ys
      · simp

theorem take_commonLen : ∀ a b : List Nat, a.take (commonLen a b) = b.take (commonLen a b) := by
  intro a
  induction a with
  | nil => intro b; cases b <;> simp [commonLen]
  | cons x xs ih =>
    intro b
    cases b with
    | nil => simp [commonLen]
    | cons y ys =>
      simp only [commonLen]
      split
      · rename_i hxy
        simp [List.take_succ_cons, hxy, ih ys]
      · simp

theorem commonLen_lt_ne : ∀ a b : List Nat, commonLen a b < a.length → commonLen a b < b.length →
    a.getD (commonLen a b) 0 ≠ b.getD (commonLen a b) 0 := by
  intro a
  induction a with
  | nil => intro b h _; simp at h
  | cons x xs ih =>
    intro b h1 h2
    cases b with
    | nil => simp at h2
    | cons y ys =>
      simp only [commonLen] at *
      split at h1 <;> rename_i hxy
      · rw [if_pos hxy] at h2 ⊢
        simpa using ih ys (by simpa using h1) (by simpa using h2)
      · rw [if_neg hxy] at h2 ⊢
        simpa using hxy

theorem le_commonLen_of_take_eq : ∀ (m : Nat) (a b : List Nat),
    a.take m = b.take m → m ≤ a.length → m ≤ commonLen a b := by
  intro m
  induction m with
  | zero => simp
  | succ k ih =>
    intro a b ht hl
    cases a with
    | nil => simp at hl
    | cons x xs =>
      cases b with
      | nil => simp at ht
      | cons y ys =>
        simp only [List.take_succ_cons, List.cons.injEq] at ht
        simp only [commonLen, ht.1, if_pos]
        have := ih xs ys ht.2 (by simpa using hl)
        omega

theorem commonLen_full_right (a b : List Nat) (h : a.take b.length = b) :
    commonLen a b = b.length := by
  have hlen : b.length ≤ a.length := by
    have := congrArg List.length h
    simp at this
    omega
  have h1 := le_commonLen_of_take_eq b.length a b (by rw [h, List.take_of_length_le (le_refl _)]) hlen
  have h2 := commonLen_le_right a b
  omega

theorem commonLen_self (a : List Nat) : commonLen a a = a.length := by
  have h1 := le_commonLen_of_take_eq a.length a a rfl (le_refl _)
  have h2 := commonLen_le_right a a
  omega

theorem goodKey_ne_nil {k : List Nat} (h : goodKey k) : k ≠ [] := by
  obtain ⟨body, rfl, -⟩ := h
  simp

theorem goodKey_getD_lt {k : List Nat} (h : goodKey k) (i : Nat) (hi : i + 1 < k.length) :
    k.getD i 0 < 16 := by
  obtain ⟨body, rfl, hb⟩ := h
  simp only [List.length_append, List.length_singleton] at hi
  have hib : i < body.length := by omega
  rw [List.getD_eq_getElem?_getD, List.getElem?_append_left hib,
    List.getElem?_eq_getElem hib, Option.getD_some]
  exact hb _ (List.getElem_mem hib)

theorem goodKey_drop {k : List Nat} (h : goodKey k) (m : Nat) (hm : m < k.length) :
    goodKey (k.drop m) := by
  obtain ⟨body, rfl, hb⟩ := h
  simp only [List.length_append, List.length_singleton] at hm
  refine ⟨body.drop m, ?_, fun x hx => hb x (List.mem_of_mem_drop hx)⟩
  rw [List.drop_append_of_le_length (by omega)]

theorem goodKey_cons {i : Nat} {rest : List Nat} (h : goodKey (i :: rest)) :
    (i = 16 ∧ rest = []) ∨ (i < 16 ∧ goodKey rest) := by
  obtain ⟨body, hb, hlt⟩ := h
  cases body with
  | nil => simp at hb; exact Or.inl ⟨hb.1, hb.2⟩
  | cons x xs =>
    simp only [List.cons_append, List.cons.injEq] at hb
    exact Or.inr ⟨hb.1 ▸ hlt x (by simp), ⟨xs, hb.2, fun y hy => hlt y (by simp [hy])⟩⟩

theorem goodKey_last {k : List Nat} (h : goodKey k) : k.getD (k.length - 1) 0 = 16 := by
  obtain ⟨body, rfl, -⟩ := h
  simp only [List.length_append, List.length_singleton, Nat.add_sub_cancel]
  rw [List.getD_eq_getElem?_getD, List.getElem?_append_right (le_refl _)]
  simp

theorem goodKey_eq_of_take {k1 k2 : List Nat} (h1 : goodKey k1) (h2 : goodKey k2)
    (hl : k1.length = k2.length) (ht : k1.take (k1.length - 1) = k2.take (k2.length - 1)) :
    k1 = k2 := by
  obtain ⟨b1, rfl, -⟩ := h1
  obtain ⟨b2, rfl, -⟩ := h2
  simp only [List.length_append, List.length_singleton, Nat.add_sub_cancel] at hl ht
  rw [List.take_append_of_le_length (le_refl _), List.take_of_length_le (le_refl _)] at ht
  rw [List.take_append_of_le_length (by omega), List.take_of_length_le (by omega)] at ht
  rw [ht]

theorem toNibbles_length (bs : Bytes) : (toNibbles bs).length = 2 * bs.length := by
  induction bs with
  | nil => simp [toNibbles]
  | cons b rest ih =>
    simp only [toNibbles, List.flatMap_cons, List.length_append, List.length_cons,
      List.length_nil] at *
    omega

theorem toNibbles_lt {bs : Bytes} (hb : ∀ b ∈ bs, b < 256) : ∀ x ∈ toNibbles bs, x < 16 := by
  induction bs with
  | nil => simp [toNibbles]
  | cons b rest ih =>
    intro x hx
    simp only [toNibbles, List.flatMap_cons, List.mem_append, List.mem_cons] at hx
    rcases hx with (h | h | h) | h
    · subst h; exact Nat.div_lt_of_lt_mul (by have := hb b (by simp); omega)
    · subst h; exact Nat.mod_lt _ (by omega)
    · simp at h
    · exact ih (fun y hy => hb y (by simp [hy])) x h

theorem toNibbles_take (bs : Bytes) (k : Nat) :
    toNibbles (bs.take k) = (toNibbles bs).take (2 * k) := by
  induction bs generalizing k with
  | nil => simp [toNibbles]
  | cons b rest ih =>
    cases k with
    | zero => simp [toNibbles]
    | succ j =>
      simp only [List.take_succ_cons, toNibbles, List.flatMap_cons]
      have : 2 * (j + 1) = (2 * j) + 1 + 1 := by omega
      rw [this]
      simp only [List.cons_append, List.nil_append, List.take_succ_cons]
      have := ih j
      simp only [toNibbles] at this
      rw [this]

theorem toNibbles_inj {bs1 bs2 : Bytes} (h1 : ∀ b ∈ bs1, b < 256) (h2 : ∀ b ∈ bs2, b < 256)
    (he : toNibbles bs1 = toNibbles bs2) : bs1 = bs2 := by
  induction bs1 generalizing bs2 with
  | nil => cases bs2 with
    | nil => rfl
    | cons b r => simp [toNibbles] at he
  | cons b r ih =>
    cases bs2 with
    | nil => simp [toNibbles] at he
    | cons b2 r2 =>
      simp only [toNibbles, List.flatMap_cons, List.cons_append, List.nil_append,
        List.cons.injEq] at he
      obtain ⟨hd, hm, ht⟩ := he
      have hb : b = b2 := by
        have e1 := Nat.div_add_mod b 16
        have e2 := Nat.div_add_mod b2 16
        omega
      rw [hb, ih (fun y hy => h1 y (by simp [hy])) (fun y hy => h2 y (by simp [hy])) ht]

theorem extSplit_branch (p : List Nat) (sub : Node) (rest : List Nat) (v : Str) :
    ∃ c w, extSplit p sub rest v = .branch c w := by
  unfold extSplit
  cases rest with
  | nil => exact ⟨_, _, rfl⟩
  | cons i r =>
    by_cases hi : i = 16
    · simp only [hi, if_pos rfl]; exact ⟨_, _, rfl⟩
    · simp only [if_neg hi]; exact ⟨_, _, rfl⟩

theorem insertAt_ne_empty (n : Node) (ks : List Nat) (v : Str) : insertAt n ks v ≠ .empty := by
  cases n with
  | empty => simp [insertAt]
  | leaf k0 v0 =>
    simp only [insertAt]
    split
    · simp
    · split <;> simp
  | branch c val =>
    cases ks with
    | nil => simp [insertAt]
    | cons i rest =>
      simp only [insertAt]
      split <;> simp
  | ext p sub =>
    simp only [insertAt]
    split
    · obtain ⟨c, w, hc⟩ := extSplit_branch p sub ks v
      simp [hc]
    · split
      · simp
      · obtain ⟨c, w, hc⟩ := extSplit_branch (p.drop (commonLen ks p)) sub (ks.drop (commonLen ks p)) v
        simp [hc]

theorem insertAt_branch_shape (c : Nat → Node) (val : Option Str) (ks : List Nat) (v : Str) :
    ∃ c2 v2, insertAt (.branch c val) ks v = .branch c2 v2 := by
  cases ks with
  | nil => exact ⟨_, _, rfl⟩
  | cons i rest =>
    simp only [insertAt]
    split
    · exact ⟨_, _, rfl⟩
    · exact ⟨_, _, rfl⟩

theorem updChild_same (c : Nat → Node) (i : Nat) (n : Node) : updChild c i n i = n := by
  simp [updChild]

theorem updChild_other (c : Nat → Node) (i j : Nat) (n : Node) (h : j ≠ i) :
    updChild c i n j = c j := by
  simp [updChild, h]

theorem walkEnd_branch (c : Nat → Node) (val : Option Str) (i : Nat) (rest : List Nat)
    (h : ¬ i = 16) : walkEnd (.branch c val) (i :: rest) = walkEnd (c i) rest := by
  unfold walkEnd
  simp only [getPathAt, if_neg h]
  cases hp : getPathAt (c i) rest with
  | nil => simp
  | cons x xs => simp

theorem walkEnd_ext (p : List Nat) (sub : Node) (ks : List Nat)
    (h : commonLen ks p = p.length) : walkEnd (.ext p sub) ks = walkEnd sub (ks.drop p.length) := by
  unfold walkEnd
  simp only [getPathAt, if_pos h]
  cases hp : getPathAt sub (ks.drop p.length) with
  | nil => simp
  | cons x xs => simp

theorem lookupN_ne_empty {n : Node} {q : List Nat} {w : Str} (h : lookupN n q = some w) :
    n ≠ .empty := by
  intro he
  subst he
  simp [lookupN] at h

theorem get_proof_getLast (t : Node) (key : Bytes) (h : t ≠ .empty) :
    (get_proof t key).getLast? = some (walkEnd t (toNibbles key ++ [16])) := by
  have hrev : ∀ (path : List Node) (r : Node),
      ((path ++ [r]).reverse).getLast? = some (match path with | [] => r | x :: _ => x) := by
    intro path r
    rw [List.getLast?_reverse]
    cases path <;> simp
  simp only [get_proof, walkEnd]
  cases t with
  | empty => exact absurd rfl h
  | leaf k v => exact hrev _ _
  | ext p sub => exact hrev _ _
  | branch c val => exact hrev _ _

theorem drop_eq_getD_cons {l : List Nat} {m : Nat} (h : m < l.length) :
    l.drop m = l.getD m 0 :: l.drop (m + 1) := by
  rw [List.drop_eq_getElem_cons h, List.getD_eq_getElem?_getD, List.getElem?_eq_getElem h,
    Option.getD_some]

theorem headD_drop_getD {l : List Nat} {m : Nat} (h : m < l.length) :
    (l.drop m).headD 0 = l.getD m 0 := by
  rw [drop_eq_getD_cons h]
  rfl

theorem commonLen_full_eq {a b : List Nat} (hl : a.length = b.length)
    (h : commonLen a b = b.length) : a = b := by
  have ht := take_commonLen a b
  rw [h, List.take_of_length_le (le_of_eq hl), List.take_of_length_le (le_refl _)] at ht
  exact ht

theorem commonLen_zero_head {a b : List Nat} (ha : a ≠ []) (hb : b ≠ []) (h : commonLen a b = 0) :
    a.headD 0 ≠ b.headD 0 := by
  cases a with
  | nil => exact absurd rfl ha
  | cons x xs =>
    cases b with
    | nil => exact absurd rfl hb
    | cons y ys =>
      simp only [commonLen] at h
      intro he
      simp only [List.headD_cons] at he
      rw [if_pos he] at h
      omega

theorem trieWF_extSplit (p : List Nat) (sub : Node) (ks : List Nat) (v : Str) (L : Nat)
    (hp : p ≠ []) (hplt : ∀ x ∈ p, x < 16) (hpl : p.length + 2 ≤ L)
    (hsub : ∃ c w, sub = Node.branch c w) (hwfsub : TrieWF sub (L - p.length))
    (hk : goodKey ks) (hl : ks.length = L)
    (hd : ks.headD 0 ≠ p.headD 0) : TrieWF (extSplit p sub ks v) L := by
  obtain ⟨i, rest, rfl⟩ : ∃ i rest, ks = i :: rest := by
    cases ks with
    | nil => simp at hl; omega
    | cons i rest => exact ⟨i, rest, rfl⟩
  obtain ⟨p0, p', rfl⟩ : ∃ p0 p', p = p0 :: p' := by
    cases p with
    | nil => exact absurd rfl hp
    | cons p0 p' => exact ⟨p0, p', rfl⟩
  have hp0 : p0 < 16 := hplt p0 (by simp)
  simp only [List.length_cons] at hl hpl
  have hrest : rest ≠ [] := by
    intro he
    subst he
    simp at hl
    omega
  have hi : i < 16 ∧ goodKey rest := by
    rcases goodKey_cons hk with ⟨h16, hnil⟩ | hr
    · exact absurd hnil hrest
    · exact hr
  have hip0 : i ≠ p0 := by simpa using hd
  have hsubne : sub ≠ .empty := by
    obtain ⟨c, w, rfl⟩ := hsub
    simp
  simp only [extSplit, List.headD_cons, if_neg (show ¬ i = 16 by omega)]
  refine ⟨rfl, by omega, ⟨i, p0, hi.1, hp0, hip0, ?_, ?_⟩, ?_⟩
  · rw [updChild_same]
    simp
  · rw [updChild_other _ _ _ _ (Ne.symm hip0), updChild_same]
    split
    · exact hsubne
    · simp
  · intro j hj
    by_cases hji : j = i
    · subst hji
      rw [updChild_same]
      exact ⟨by omega, hi.2⟩
    · rw [updChild_other _ _ _ _ hji]
      by_cases hjp : j = p0
      · subst hjp
        rw [updChild_same]
        split
        · rename_i h1
          have hpnil : p' = [] := by
            cases p' with
            | nil => rfl
            | cons a b => simp at h1
          subst hpnil
          simpa using hwfsub
        · rename_i h1
          have hpne : p' ≠ [] := by
            intro he
            subst he
            simp at h1
          simp only [List.drop_succ_cons, List.drop_zero]
          refine ⟨hpne, fun x hx => hplt x (by simp [hx]), by omega, hsub, ?_⟩
          have he : L - 1 - p'.length = L - (p'.length + 1) := by omega
          rw [he]
          simpa using hwfsub
      · rw [updChild_other _ _ _ _ hjp]
        simp [emptyChildren, TrieWF]

theorem goodKey_take_lt {k : List Nat} (h : goodKey k) (m : Nat) (hm : m < k.length) :
    ∀ x ∈ k.take m, x < 16 := by
  obtain ⟨body, rfl, hb⟩ := h
  simp only [List.length_append, List.length_singleton] at hm
  intro x hx
  rw [List.take_append_of_le_length (by omega)] at hx
  exact hb x (List.mem_of_mem_take hx)

theorem leaf_split_bounds {ks k0 : List Nat} {L : Nat} (hk : goodKey ks) (h0 : goodKey k0)
    (hlk : ks.length = L) (hl0 : k0.length = L) (hm : commonLen ks k0 ≠ k0.length) :
    commonLen ks k0 + 2 ≤ L ∧ ks.getD (commonLen ks k0) 0 < 16 ∧
      k0.getD (commonLen ks k0) 0 < 16 ∧
      ks.getD (commonLen ks k0) 0 ≠ k0.getD (commonLen ks k0) 0 := by
  have hmlt : commonLen ks k0 < k0.length := lt_of_le_of_ne (commonLen_le_right _ _) hm
  have hm2 : commonLen ks k0 + 2 ≤ L := by
    by_contra hc
    have hmeq : commonLen ks k0 = L - 1 := by omega
    have ht := take_commonLen ks k0
    rw [hmeq] at ht
    have heq : ks = k0 := goodKey_eq_of_take hk h0 (by omega)
      (by rw [hlk, hl0]; exact ht)
    rw [heq, commonLen_self, hl0] at hm
    exact hm rfl
  refine ⟨hm2, goodKey_getD_lt hk _ (by omega), goodKey_getD_lt h0 _ (by omega),
    commonLen_lt_ne ks k0 (by omega) hmlt⟩

theorem trieWF_insertAt : ∀ (n : Node) (ks : List Nat) (v : Str) (L : Nat),
    TrieWF n L → goodKey ks → ks.length = L → TrieWF (insertAt n ks v) L := by
  intro n
  induction n with
  | empty =>
    intro ks v L _ hk hl
    exact ⟨hl, hk⟩
  | leaf k0 v0 =>
    intro ks v L hwf hk hl
    obtain ⟨hl0, h0⟩ := hwf
    simp only [insertAt]
    by_cases hm : commonLen ks k0 = k0.length
    · rw [if_pos hm]
      exact ⟨hl0, h0⟩
    · rw [if_neg hm]
      obtain ⟨hm2, hks16, hk016, hne⟩ := leaf_split_bounds hk h0 hl hl0 hm
      have hbWF : TrieWF (Node.branch (updChild
          (updChild emptyChildren (k0.getD (commonLen ks k0) 0)
            (.leaf (k0.drop (commonLen ks k0 + 1)) v0))
          (ks.getD (commonLen ks k0) 0) (.leaf (ks.drop (commonLen ks k0 + 1)) v)) none)
          (L - commonLen ks k0) := by
        refine ⟨rfl, by omega, ⟨ks.getD (commonLen ks k0) 0, k0.getD (commonLen ks k0) 0,
            hks16, hk016, hne, ?_, ?_⟩, ?_⟩
        · rw [updChild_same]
          simp
        · rw [updChild_other _ _ _ _ (Ne.symm hne), updChild_same]
          simp
        · intro j hj
          by_cases h1 : j = ks.getD (commonLen ks k0) 0
          · subst h1
            rw [updChild_same]
            exact ⟨by simp [List.length_drop]; omega, goodKey_drop hk _ (by omega)⟩
          · rw [updChild_other _ _ _ _ h1]
            by_cases h2 : j = k0.getD (commonLen ks k0) 0
            · subst h2
              rw [updChild_same]
              exact ⟨by simp [List.length_drop]; omega, goodKey_drop h0 _ (by omega)⟩
            · rw [updChild_other _ _ _ _ h2]
              simp [emptyChildren, TrieWF]
      by_cases hm0 : commonLen ks k0 = 0
      · rw [if_pos hm0]
        rw [hm0] at hbWF ⊢
        simpa using hbWF
      · rw [if_neg hm0]
        have hmtl : (ks.take (commonLen ks k0)).length = commonLen ks k0 := by
          simp [List.length_take]
          omega
        refine ⟨?_, goodKey_take_lt hk _ (by omega), by rw [hmtl]; omega,
          ⟨_, _, rfl⟩, ?_⟩
        · intro he
          have := congrArg List.length he
          rw [hmtl] at this
          simp at this
          omega
        · rw [hmtl]
          exact hbWF
  | branch c val ih =>
    intro ks v L hwf hk hl
    obtain ⟨hval, hL2, hch2, hchWF⟩ := hwf
    cases ks with
    | nil =>
      simp only [List.length_nil] at hl
      exact absurd hL2 (by omega)
    | cons i rest =>
      simp only [insertAt]
      simp only [List.length_cons] at hl
      have hi : i < 16 ∧ goodKey rest := by
        rcases goodKey_cons hk with ⟨h16, hnil⟩ | hr
        · exfalso
          subst hnil
          simp at hl
          omega
        · exact hr
      rw [if_neg (by omega : ¬ i = 16)]
      obtain ⟨j1, j2, hj1, hj2, hjne, hne1, hne2⟩ := hch2
      refine ⟨hval, hL2, ⟨j1, j2, hj1, hj2, hjne, ?_, ?_⟩, ?_⟩
      · by_cases h : j1 = i
        · subst h
          rw [updChild_same]
          exact insertAt_ne_empty _ _ _
        · rw [updChild_other _ _ _ _ h]
          exact hne1
      · by_cases h : j2 = i
        · subst h
          rw [updChild_same]
          exact insertAt_ne_empty _ _ _
        · rw [updChild_other _ _ _ _ h]
          exact hne2
      · intro j hj
        by_cases h : j = i
        · subst h
          rw [updChild_same]
          exact ih j rest v (L - 1) (hchWF j hj) hi.2 (by omega)
        · rw [updChild_other _ _ _ _ h]
          exact hchWF j hj
  | ext p sub ih =>
    intro ks v L hwf hk hl
    obtain ⟨hp, hplt, hpl, hsub, hwfsub⟩ := hwf
    simp only [insertAt]
    by_cases hm0 : commonLen ks p = 0
    · rw [if_pos hm0]
      exact trieWF_extSplit p sub ks v L hp hplt hpl hsub hwfsub hk hl
        (commonLen_zero_head (goodKey_ne_nil hk) hp hm0)
    · rw [if_neg hm0]
      by_cases hmp : commonLen ks p = p.length
      · rw [if_pos hmp, hmp]
        refine ⟨hp, hplt, hpl, ?_, ?_⟩
        · obtain ⟨c, w, hc⟩ := hsub
          rw [hc]
          exact insertAt_branch_shape c w _ v
        · exact ih (ks.drop p.length) v (L - p.length) hwfsub
            (goodKey_drop hk _ (by omega)) (by simp [List.length_drop]; omega)
      · rw [if_neg hmp]
        have hmlt : commonLen ks p < p.length := lt_of_le_of_ne (commonLen_le_right _ _) hmp
        have hm1 : 1 ≤ commonLen ks p := Nat.one_le_iff_ne_zero.mpr hm0
        have hmtl : (p.take (commonLen ks p)).length = commonLen ks p := by
          simp [List.length_take]
          omega
        obtain ⟨c2, w2, hc2⟩ := extSplit_branch (p.drop (commonLen ks p)) sub
          (ks.drop (commonLen ks p)) v
        refine ⟨?_, fun x hx => hplt x (List.mem_of_mem_take hx), by rw [hmtl]; omega,
          ⟨c2, w2, hc2⟩, ?_⟩
        · intro he
          have := congrArg List.length he
          rw [hmtl] at this
          simp at this
          omega
        · rw [hmtl]
          apply trieWF_extSplit
          · intro he
            have := congrArg List.length he
            simp [List.length_drop] at this
            omega
          · exact fun x hx => hplt x (List.mem_of_mem_drop hx)
          · simp [List.length_drop]
            omega
          · exact hsub
          · have he : L - commonLen ks p - (p.drop (commonLen ks p)).length = L - p.length := by
              simp [List.length_drop]
              omega
            rw [he]
            exact hwfsub
          · exact goodKey_drop hk _ (by omega)
          · simp [List.length_drop]
            omega
          · rw [headD_drop_getD (show commonLen ks p < ks.length by omega),
              headD_drop_getD hmlt]
            exact commonLen_lt_ne ks p (by omega) hmlt

theorem lookupN_extSplit_self (p : List Nat) (sub : Node) (i : Nat) (rest : List Nat) (v : Str)
    (hi16 : i < 16) : lookupN (extSplit p sub (i :: rest) v) (i :: rest) = some v := by
  simp only [extSplit, if_neg (by omega : ¬ i = 16)]
  simp only [lookupN, if_neg (by omega : ¬ i = 16), if_pos hi16]
  rw [updChild_same]
  simp [lookupN]

theorem lookupN_insertAt_self : ∀ (n : Node) (ks : List Nat) (v : Str) (L : Nat),
    TrieWF n L → goodKey ks → ks.length = L → lookupN (insertAt n ks v) ks = some v := by
  intro n
  induction n with
  | empty =>
    intro ks v L _ hk hl
    simp [insertAt, lookupN]
  | leaf k0 v0 =>
    intro ks v L hwf hk hl
    obtain ⟨hl0, h0⟩ := hwf
    simp only [insertAt]
    by_cases hm : commonLen ks k0 = k0.length
    · rw [if_pos hm]
      have : ks = k0 := commonLen_full_eq (by omega) hm
      simp [lookupN, this]
    · rw [if_neg hm]
      obtain ⟨hm2, hks16, hk016, hne⟩ := leaf_split_bounds hk h0 hl hl0 hm
      have hdrop := drop_eq_getD_cons (show commonLen ks k0 < ks.length by omega)
      have hbLook : lookupN (Node.branch (updChild
          (updChild emptyChildren (k0.getD (commonLen ks k0) 0)
            (.leaf (k0.drop (commonLen ks k0 + 1)) v0))
          (ks.getD (commonLen ks k0) 0) (.leaf (ks.drop (commonLen ks k0 + 1)) v)) none)
          (ks.drop (commonLen ks k0)) = some v := by
        rw [hdrop]
        simp only [lookupN, if_neg (by omega : ¬ ks.getD (commonLen ks k0) 0 = 16),
          if_pos hks16]
        rw [updChild_same]
        simp [lookupN]
      by_cases hm0 : commonLen ks k0 = 0
      · rw [if_pos hm0]
        rw [hm0] at hbLook ⊢
        simpa using hbLook
      · rw [if_neg hm0]
        have hmtl : (ks.take (commonLen ks k0)).length = commonLen ks k0 := by
          simp [List.length_take]
          omega
        simp only [lookupN, hmtl]
        simpa using hbLook
  | branch c val ih =>
    intro ks v L hwf hk hl
    obtain ⟨hval, hL2, hch2, hchWF⟩ := hwf
    cases ks with
    | nil =>
      simp only [List.length_nil] at hl
      exact absurd hL2 (by omega)
    | cons i rest =>
      simp only [List.length_cons] at hl
      have hi : i < 16 ∧ goodKey rest := by
        rcases goodKey_cons hk with ⟨h16, hnil⟩ | hr
        · exfalso
          subst hnil
          simp at hl
          omega
        · exact hr
      simp only [insertAt, if_neg (by omega : ¬ i = 16)]
      simp only [lookupN, if_neg (by omega : ¬ i = 16), if_pos hi.1]
      rw [updChild_same]
      exact ih i rest v (L - 1) (hchWF i hi.1) hi.2 (by omega)
  | ext p sub ih =>
    intro ks v L hwf hk hl
    obtain ⟨hp, hplt, hpl, hsub, hwfsub⟩ := hwf
    simp only [insertAt]
    by_cases hm0 : commonLen ks p = 0
    · rw [if_pos hm0]
      obtain ⟨i, rest, rfl⟩ : ∃ i rest, ks = i :: rest := by
        cases ks with
        | nil => simp at hl; omega
        | cons i rest => exact ⟨i, rest, rfl⟩
      have hi : i < 16 := by
        rcases goodKey_cons hk with ⟨h16, hnil⟩ | hr
        · exfalso
          subst hnil
          simp at hl
          omega
        · exact hr.1
      exact lookupN_extSplit_self p sub i rest v hi
    · rw [if_neg hm0]
      by_cases hmp : commonLen ks p = p.length
      · rw [if_pos hmp, hmp]
        have htake : ks.take p.length = p := by
          have := take_commonLen ks p
          rw [hmp, List.take_of_length_le (le_refl _)] at this
          exact this
        simp only [lookupN, htake, if_pos rfl]
        exact ih (ks.drop p.length) v (L - p.length) hwfsub
          (goodKey_drop hk _ (by omega)) (by simp [List.length_drop]; omega)
      · rw [if_neg hmp]
        have hmlt : commonLen ks p < p.length := lt_of_le_of_ne (commonLen_le_right _ _) hmp
        have hmtl : (p.take (commonLen ks p)).length = commonLen ks p := by
          simp [List.length_take]
          omega
        have htake : ks.take (commonLen ks p) = p.take (commonLen ks p) := take_commonLen ks p
        simp only [lookupN, hmtl, htake, if_pos rfl]
        have hdrop := drop_eq_getD_cons (show commonLen ks p < ks.length by omega)
        rw [hdrop]
        exact lookupN_extSplit_self _ sub _ _ v
          (goodKey_getD_lt hk _ (by omega))

theorem getD_of_take_eq {q p : List Nat} {m : Nat} (h : q.take p.length = p)
    (hm : m < p.length) : q.getD m 0 = p.getD m 0 := by
  have := congrArg (fun l => List.getD l m 0) h
  simp only at this
  rw [← this, List.getD_eq_getElem?_getD, List.getD_eq_getElem?_getD,
    List.getElem?_take_of_lt hm]

theorem drop_take_of_take_eq {q p : List Nat} {a : Nat} (h : q.take p.length = p)
    (ha : a ≤ p.length) : (q.drop a).take (p.length - a) = p.drop a := by
  rw [List.take_drop]
  have e : a + (p.length - a) = p.length := by omega
  rw [e, h]

theorem lookupN_extSplit_via_p (p : List Nat) (sub : Node) (i : Nat) (rest : List Nat)
    (v : Str) (q : List Nat) (w : Str)
    (hp : p ≠ []) (hplt : ∀ x ∈ p, x < 16) (hi16 : i < 16) (hd : i ≠ p.headD 0)
    (hq : q.take p.length = p) (hsq : lookupN sub (q.drop p.length) = some w) :
    lookupN (extSplit p sub (i :: rest) v) q = some w := by
  obtain ⟨p0, p', rfl⟩ : ∃ p0 p', p = p0 :: p' := by
    cases p with
    | nil => exact absurd rfl hp
    | cons p0 p' => exact ⟨p0, p', rfl⟩
  have hp0 : p0 < 16 := hplt p0 (by simp)
  obtain ⟨q', rfl⟩ : ∃ q', q = p0 :: q' := by
    cases q with
    | nil => simp at hq
    | cons x q' =>
      simp only [List.length_cons, List.take_succ_cons, List.cons.injEq] at hq
      exact ⟨q', by rw [hq.1]⟩
  simp only [List.length_cons, List.take_succ_cons, List.cons.injEq] at hq
  simp only [List.headD_cons] at hd
  simp only [extSplit, List.headD_cons, if_neg (by omega : ¬ i = 16)]
  simp only [lookupN, if_neg (by omega : ¬ p0 = 16), if_pos hp0]
  rw [updChild_other _ _ _ _ (Ne.symm hd), updChild_same]
  split
  · rename_i h1
    have : p' = [] := by
      cases p' with
      | nil => rfl
      | cons a b => simp at h1
    subst this
    simpa using hsq
  · rename_i h1
    have hpne : p' ≠ [] := by
      intro he
      subst he
      simp at h1
    simp only [List.drop_succ_cons, List.drop_zero, lookupN, hq.2, if_pos rfl]
    simpa using hsq

theorem lookupN_insertAt_other : ∀ (n : Node) (ks : List Nat) (v : Str) (L : Nat)
    (q : List Nat) (w : Str), TrieWF n L → goodKey ks → ks.length = L →
    lookupN n q = some w → q ≠ ks → lookupN (insertAt n ks v) q = some w := by
  intro n
  induction n with
  | empty =>
    intro ks v L q w _ _ _ hq _
    simp [lookupN] at hq
  | leaf k0 v0 =>
    intro ks v L q w hwf hk hl hq hne
    obtain ⟨hl0, h0⟩ := hwf
    have hq0 : q = k0 ∧ w = v0 := by
      simp only [lookupN] at hq
      split at hq
      · exact ⟨by assumption, by simpa using hq.symm⟩
      · simp at hq
    rw [hq0.1, hq0.2]
    rw [hq0.1] at hne
    simp only [insertAt]
    by_cases hm : commonLen ks k0 = k0.length
    · exact absurd (commonLen_full_eq (by omega) hm).symm hne
    · rw [if_neg hm]
      obtain ⟨hm2, hks16, hk016, hnib⟩ := leaf_split_bounds hk h0 hl hl0 hm
      have hdrop0 := drop_eq_getD_cons (show commonLen ks k0 < k0.length by omega)
      have hbLook : lookupN (Node.branch (updChild
          (updChild emptyChildren (k0.getD (commonLen ks k0) 0)
            (.leaf (k0.drop (commonLen ks k0 + 1)) v0))
          (ks.getD (commonLen ks k0) 0) (.leaf (ks.drop (commonLen ks k0 + 1)) v)) none)
          (k0.drop (commonLen ks k0)) = some v0 := by
        rw [hdrop0]
        simp only [lookupN, if_neg (by omega : ¬ k0.getD (commonLen ks k0) 0 = 16),
          if_pos hk016]
        rw [updChild_other _ _ _ _ (Ne.symm hnib), updChild_same]
        simp [lookupN]
      by_cases hm0 : commonLen ks k0 = 0
      · rw [if_pos hm0]
        rw [hm0] at hbLook ⊢
        simpa using hbLook
      · rw [if_neg hm0]
        have hmtl : (ks.take (commonLen ks k0)).length = commonLen ks k0 := by
          simp [List.length_take]
          omega
        have htk : k0.take (commonLen ks k0) = ks.take (commonLen ks k0) :=
          (take_commonLen ks k0).symm
        simp only [lookupN, hmtl, ← htk]
        simpa [min_eq_left (show commonLen ks k0 ≤ k0.length by omega)] using hbLook
  | branch c val ih =>
    intro ks v L q w hwf hk hl hq hne
    obtain ⟨hval, hL2, hch2, hchWF⟩ := hwf
    cases ks with
    | nil =>
      simp only [List.length_nil] at hl
      exact absurd hL2 (by omega)
    | cons i rest =>
      simp only [List.length_cons] at hl
      have hi : i < 16 ∧ goodKey rest := by
        rcases goodKey_cons hk with ⟨h16, hnil⟩ | hr
        · exfalso
          subst hnil
          simp at hl
          omega
        · exact hr
      simp only [insertAt, if_neg (by omega : ¬ i = 16)]
      cases q with
      | nil => simp [lookupN] at hq
      | cons j q' =>
        by_cases hj16 : j = 16
        · subst hj16
          simp only [lookupN, if_pos rfl] at hq ⊢
          exact hq
        · by_cases hjlt : j < 16
          · simp only [lookupN, if_neg hj16, if_pos hjlt] at hq ⊢
            by_cases hji : j = i
            · subst hji
              rw [updChild_same]
              exact ih j rest v (L - 1) q' w (hchWF j hjlt) hi.2 (by omega) hq
                (fun he => hne (by rw [he]))
            · rw [updChild_other _ _ _ _ hji]
              exact hq
          · simp only [lookupN, if_neg hj16, if_neg hjlt] at hq
            exact absurd hq (by simp)
  | ext p sub ih =>
    intro ks v L q w hwf hk hl hq hne
    obtain ⟨hp, hplt, hpl, hsub, hwfsub⟩ := hwf
    have hqe : q.take p.length = p ∧ lookupN sub (q.drop p.length) = some w := by
      simp only [lookupN] at hq
      split at hq
      · exact ⟨by assumption, hq⟩
      · simp at hq
    simp only [insertAt]
    by_cases hm0 : commonLen ks p = 0
    · rw [if_pos hm0]
      obtain ⟨i, rest, rfl⟩ : ∃ i rest, ks = i :: rest := by
        cases ks with
        | nil => simp at hl; omega
        | cons i rest => exact ⟨i, rest, rfl⟩
      have hi : i < 16 := by
        rcases goodKey_cons hk with ⟨h16, hnil⟩ | hr
        · exfalso
          subst hnil
          simp at hl
          omega
        · exact hr.1
      exact lookupN_extSplit_via_p p sub i rest v q w hp hplt hi
        (commonLen_zero_head (by simp) hp hm0) hqe.1 hqe.2
    · rw [if_neg hm0]
      by_cases hmp : commonLen ks p = p.length
      · rw [if_pos hmp, hmp]
        simp only [lookupN, hqe.1, if_pos rfl]
        apply ih (ks.drop p.length) v (L - p.length) (q.drop p.length) w hwfsub
          (goodKey_drop hk _ (by omega)) (by simp [List.length_drop]; omega) hqe.2
        intro he
        apply hne
        have hks : ks.take p.length = p := by
          have := take_commonLen ks p
          rw [hmp, List.take_of_length_le (le_refl _)] at this
          exact this
        calc q = q.take p.length ++ q.drop p.length := (List.take_append_drop _ _).symm
          _ = ks.take p.length ++ ks.drop p.length := by rw [hqe.1, hks, he]
          _ = ks := List.take_append_drop _ _
      · rw [if_neg hmp]
        have hmlt : commonLen ks p < p.length := lt_of_le_of_ne (commonLen_le_right _ _) hmp
        have hm1 : 1 ≤ commonLen ks p := Nat.one_le_iff_ne_zero.mpr hm0
        have hmtl : (p.take (commonLen ks p)).length = commonLen ks p := by
          simp [List.length_take]
          omega
        have hqtake : q.take (commonLen ks p) = p.take (commonLen ks p) := by
          have := congrArg (List.take (commonLen ks p)) hqe.1
          rw [List.take_take, min_eq_left (by omega)] at this
          exact this
        simp only [lookupN, hmtl, hqtake, if_pos rfl]
        have hdropKS := drop_eq_getD_cons (show commonLen ks p < ks.length by omega)
        rw [hdropKS]
        apply lookupN_extSplit_via_p
        · intro he
          have := congrArg List.length he
          simp [List.length_drop] at this
          omega
        · exact fun x hx => hplt x (List.mem_of_mem_drop hx)
        · exact goodKey_getD_lt hk _ (by omega)
        · rw [headD_drop_getD hmlt]
          exact commonLen_lt_ne ks p (by omega) hmlt
        · rw [List.length_drop]
          exact drop_take_of_take_eq hqe.1 (le_of_lt hmlt)
        · rw [List.length_drop, List.drop_drop]
          have e : commonLen ks p + (p.length - commonLen ks p) = p.length := by omega
          rw [e]
          exact hqe.2

theorem lookupN_branch_cases {c : Nat → Node} {val : Option Str} {q : List Nat} {w : Str}
    (h : lookupN (.branch c val) q = some w) :
    ∃ j q', q = j :: q' ∧ ((j = 16 ∧ q' = [] ∧ val = some w) ∨
      (j < 16 ∧ lookupN (c j) q' = some w)) := by
  cases q with
  | nil => simp [lookupN] at h
  | cons j q' =>
    refine ⟨j, q', rfl, ?_⟩
    by_cases hj : j = 16
    · subst hj
      simp only [lookupN, if_pos rfl] at h
      by_cases hq : q' = []
      · rw [if_pos hq] at h
        exact Or.inl ⟨rfl, hq, h⟩
      · rw [if_neg hq] at h
        simp at h
    · by_cases hlt : j < 16
      · simp only [lookupN, if_neg hj, if_pos hlt] at h
        exact Or.inr ⟨hlt, h⟩
      · simp only [lookupN, if_neg hj, if_neg hlt] at h
        simp at h

theorem lookupN_leaf_cases {k : List Nat} {v0 : Str} {q : List Nat} {w : Str}
    (h : lookupN (.leaf k v0) q = some w) : q = k ∧ w = v0 := by
  simp only [lookupN] at h
  split at h
  · exact ⟨by assumption, by simpa using h.symm⟩
  · simp at h

theorem lookupN_ext_cases {p : List Nat} {sub : Node} {q : List Nat} {w : Str}
    (h : lookupN (.ext p sub) q = some w) :
    q.take p.length = p ∧ lookupN sub (q.drop p.length) = some w := by
  simp only [lookupN] at h
  split at h
  · exact ⟨by assumption, h⟩
  · simp at h

theorem lookupN_extSplit_dom (p : List Nat) (sub : Node) (i : Nat) (rest : List Nat)
    (v : Str) (q : List Nat) (w : Str)
    (hp : p ≠ []) (hplt : ∀ x ∈ p, x < 16) (hi16 : i < 16) (hd : i ≠ p.headD 0)
    (h : lookupN (extSplit p sub (i :: rest) v) q = some w) :
    (q = i :: rest ∧ w = v) ∨
      (q.take p.length = p ∧ lookupN sub (q.drop p.length) = some w) := by
  obtain ⟨p0, p', rfl⟩ : ∃ p0 p', p = p0 :: p' := by
    cases p with
    | nil => exact absurd rfl hp
    | cons p0 p' => exact ⟨p0, p', rfl⟩
  have hp0 : p0 < 16 := hplt p0 (by simp)
  simp only [List.headD_cons] at hd
  simp only [extSplit, List.headD_cons, if_neg (by omega : ¬ i = 16)] at h
  obtain ⟨j, q', rfl, hcase⟩ := lookupN_branch_cases h
  rcases hcase with ⟨-, -, hval⟩ | ⟨hjlt, hch⟩
  · simp at hval
  · by_cases hji : j = i
    · subst hji
      rw [updChild_same] at hch
      obtain ⟨rfl, rfl⟩ := lookupN_leaf_cases hch
      exact Or.inl ⟨rfl, rfl⟩
    · rw [updChild_other _ _ _ _ hji] at hch
      by_cases hjp : j = p0
      · subst hjp
        rw [updChild_same] at hch
        right
        split at hch
        · rename_i h1
          have : p' = [] := by
            cases p' with
            | nil => rfl
            | cons a b => simp at h1
          subst this
          simpa using hch
        · rename_i h1
          have hpne : p' ≠ [] := by
            intro he
            subst he
            simp at h1
          simp only [List.drop_succ_cons, List.drop_zero] at hch
          obtain ⟨ht, hs⟩ := lookupN_ext_cases hch
          refine ⟨?_, ?_⟩
          · simp only [List.length_cons, List.take_succ_cons, ht]
          · simpa using hs
      · rw [updChild_other _ _ _ _ hjp] at hch
        simp [emptyChildren, lookupN] at hch

theorem lookupN_leafSplitBranch_dom (mm : Nat) (ks k0 : List Nat) (v v0 : Str)
    (q : List Nat) (w : Str) (_hnib : ks.getD mm 0 ≠ k0.getD mm 0)
    (h : lookupN (Node.branch (updChild
      (updChild emptyChildren (k0.getD mm 0) (.leaf (k0.drop (mm + 1)) v0))
      (ks.getD mm 0) (.leaf (ks.drop (mm + 1)) v)) none) q = some w) :
    (q = ks.getD mm 0 :: ks.drop (mm + 1) ∧ w = v) ∨
      (q = k0.getD mm 0 :: k0.drop (mm + 1) ∧ w = v0) := by
  obtain ⟨j, q', rfl, hcase⟩ := lookupN_branch_cases h
  rcases hcase with ⟨-, -, hval⟩ | ⟨hjlt, hch⟩
  · simp at hval
  · by_cases hjs : j = ks.getD mm 0
    · subst hjs
      rw [updChild_same] at hch
      obtain ⟨rfl, rfl⟩ := lookupN_leaf_cases hch
      exact Or.inl ⟨rfl, rfl⟩
    · rw [updChild_other _ _ _ _ hjs] at hch
      by_cases hj0 : j = k0.getD mm 0
      · subst hj0
        rw [updChild_same] at hch
        obtain ⟨rfl, rfl⟩ := lookupN_leaf_cases hch
        exact Or.inr ⟨rfl, rfl⟩
      · rw [updChild_other _ _ _ _ hj0] at hch
        simp [emptyChildren, lookupN] at hch

theorem lookupN_insertAt_dom : ∀ (n : Node) (ks : List Nat) (v : Str) (L : Nat)
    (q : List Nat) (w : Str), TrieWF n L → goodKey ks → ks.length = L →
    lookupN (insertAt n ks v) q = some w → q = ks ∨ lookupN n q = some w := by
  intro n
  induction n with
  | empty =>
    intro ks v L q w _ _ _ h
    exact Or.inl (lookupN_leaf_cases h).1
  | leaf k0 v0 =>
    intro ks v L q w hwf hk hl h
    obtain ⟨hl0, h0⟩ := hwf
    simp only [insertAt] at h
    by_cases hm : commonLen ks k0 = k0.length
    · rw [if_pos hm] at h
      obtain ⟨rfl, rfl⟩ := lookupN_leaf_cases h
      exact Or.inl (commonLen_full_eq (by omega) hm).symm
    · rw [if_neg hm] at h
      obtain ⟨hm2, hks16, hk016, hnib⟩ := leaf_split_bounds hk h0 hl hl0 hm
      have hdropk := drop_eq_getD_cons (show commonLen ks k0 < ks.length by omega)
      have hdrop0 := drop_eq_getD_cons (show commonLen ks k0 < k0.length by omega)
      by_cases hm0 : commonLen ks k0 = 0
      · rw [if_pos hm0] at h
        rcases lookupN_leafSplitBranch_dom (commonLen ks k0) ks k0 v v0 q w hnib h with
          ⟨hq, rfl⟩ | ⟨hq, rfl⟩
        · left
          rw [hq, ← hdropk, hm0, List.drop_zero]
        · right
          rw [hq, ← hdrop0, hm0, List.drop_zero]
          simp [lookupN]
      · rw [if_neg hm0] at h
        have hmtl : (ks.take (commonLen ks k0)).length = commonLen ks k0 := by
          simp [List.length_take]
          omega
        obtain ⟨hqt, hqs⟩ := lookupN_ext_cases h
        rw [hmtl] at hqs
        rw [hmtl] at hqt
        rcases lookupN_leafSplitBranch_dom (commonLen ks k0) ks k0 v v0 _ w hnib hqs with
          ⟨hq, rfl⟩ | ⟨hq, rfl⟩
        · left
          calc q = q.take (commonLen ks k0) ++ q.drop (commonLen ks k0) :=
                (List.take_append_drop _ _).symm
            _ = ks.take (commonLen ks k0) ++ ks.drop (commonLen ks k0) := by
                rw [hqt, hq, ← hdropk]
            _ = ks := List.take_append_drop _ _
        · right
          have hqk0 : q = k0 := by
            calc q = q.take (commonLen ks k0) ++ q.drop (commonLen ks k0) :=
                  (List.take_append_drop _ _).symm
              _ = k0.take (commonLen ks k0) ++ k0.drop (commonLen ks k0) := by
                  rw [hqt, hq, ← hdrop0, take_commonLen]
              _ = k0 := List.take_append_drop _ _
          rw [hqk0]
          simp [lookupN]
  | branch c val ih =>
    intro ks v L q w hwf hk hl h
    obtain ⟨hval, hL2, hch2, hchWF⟩ := hwf
    cases ks with
    | nil =>
      simp only [List.length_nil] at hl
      exact absurd hL2 (by omega)
    | cons i rest =>
      simp only [List.length_cons] at hl
      have hi : i < 16 ∧ goodKey rest := by
        rcases goodKey_cons hk with ⟨h16, hnil⟩ | hr
        · exfalso
          subst hnil
          simp at hl
          omega
        · exact hr
      simp only [insertAt, if_neg (by omega : ¬ i = 16)] at h
      obtain ⟨j, q', rfl, hcase⟩ := lookupN_branch_cases h
      rcases hcase with ⟨hj16, hq, hv⟩ | ⟨hjlt, hch⟩
      · right
        subst hj16 hq
        simp [lookupN, hv]
      · by_cases hji : j = i
        · subst hji
          rw [updChild_same] at hch
          rcases ih j rest v (L - 1) q' w (hchWF j hjlt) hi.2 (by omega) hch with hq | hq
          · exact Or.inl (by rw [hq])
          · right
            simp only [lookupN, if_neg (by omega : ¬ j = 16), if_pos hjlt]
            exact hq
        · rw [updChild_other _ _ _ _ hji] at hch
          right
          simp only [lookupN, if_neg (by omega : ¬ j = 16), if_pos hjlt]
          exact hch
  | ext p sub ih =>
    intro ks v L q w hwf hk hl h
    obtain ⟨hp, hplt, hpl, hsub, hwfsub⟩ := hwf
    simp only [insertAt] at h
    by_cases hm0 : commonLen ks p = 0
    · rw [if_pos hm0] at h
      obtain ⟨i, rest, rfl⟩ : ∃ i rest, ks = i :: rest := by
        cases ks with
        | nil => simp at hl; omega
        | cons i rest => exact ⟨i, rest, rfl⟩
      have hi : i < 16 := by
        rcases goodKey_cons hk with ⟨h16, hnil⟩ | hr
        · exfalso
          subst hnil
          simp at hl
          omega
        · exact hr.1
      rcases lookupN_extSplit_dom p sub i rest v q w hp hplt hi
        (commonLen_zero_head (by simp) hp hm0) h with ⟨hq, rfl⟩ | ⟨hqt, hqs⟩
      · exact Or.inl hq
      · right
        simp only [lookupN, hqt, if_pos rfl]
        exact hqs
    · rw [if_neg hm0] at h
      by_cases hmp : commonLen ks p = p.length
      · rw [if_pos hmp, hmp] at h
        obtain ⟨hqt, hqs⟩ := lookupN_ext_cases h
        have hks : ks.take p.length = p := by
          have := take_commonLen ks p
          rw [hmp, List.take_of_length_le (le_refl _)] at this
          exact this
        rcases ih (ks.drop p.length) v (L - p.length) (q.drop p.length) w hwfsub
          (goodKey_drop hk _ (by omega)) (by simp [List.length_drop]; omega) hqs with hq | hq
        · left
          calc q = q.take p.length ++ q.drop p.length := (List.take_append_drop _ _).symm
            _ = ks.take p.length ++ ks.drop p.length := by rw [hqt, hks, hq]
            _ = ks := List.take_append_drop _ _
        · right
          simp only [lookupN, hqt, if_pos rfl]
          exact hq
      · rw [if_neg hmp] at h
        have hmlt : commonLen ks p < p.length := lt_of_le_of_ne (commonLen_le_right _ _) hmp
        have hm1 : 1 ≤ commonLen ks p := Nat.one_le_iff_ne_zero.mpr hm0
        have hmtl : (p.take (commonLen ks p)).length = commonLen ks p := by
          simp [List.length_take]
          omega
        obtain ⟨hqt, hqs⟩ := lookupN_ext_cases h
        rw [hmtl] at hqt hqs
        have hdropKS := drop_eq_getD_cons (show commonLen ks p < ks.length by omega)
        rw [hdropKS] at hqs
        rcases lookupN_extSplit_dom (p.drop (commonLen ks p)) sub _ _ v _ w
          (by
            intro he
            have := congrArg List.length he
            simp [List.length_drop] at this
            omega)
          (fun x hx => hplt x (List.mem_of_mem_drop hx))
          (goodKey_getD_lt hk _ (by omega))
          (by
            rw [headD_drop_getD hmlt]
            exact commonLen_lt_ne ks p (by omega) hmlt) hqs with ⟨hq, rfl⟩ | ⟨hqt2, hqs2⟩
        · left
          calc q = q.take (commonLen ks p) ++ q.drop (commonLen ks p) :=
                (List.take_append_drop _ _).symm
            _ = ks.take (commonLen ks p) ++ ks.drop (commonLen ks p) := by
                rw [hqt, hq, ← hdropKS, take_commonLen]
            _ = ks := List.take_append_drop _ _
        · right
          rw [List.length_drop] at hqt2 hqs2
          rw [List.drop_drop] at hqs2
          have e : commonLen ks p + (p.length - commonLen ks p) = p.length := by omega
          rw [e] at hqs2
          have hqfull : q.take p.length = p := by
            have h1 : (q.take p.length).take (commonLen ks p) = q.take (commonLen ks p) := by
              rw [List.take_take, min_eq_left (by omega)]
            have h2 : (q.take p.length).drop (commonLen ks p) =
                (q.drop (commonLen ks p)).take (p.length - commonLen ks p) := by
              rw [List.take_drop]
              have e2 : commonLen ks p + (p.length - commonLen ks p) = p.length := by omega
              rw [e2]
            calc q.take p.length
                = (q.take p.length).take (commonLen ks p) ++
                  (q.take p.length).drop (commonLen ks p) :=
                  (List.take_append_drop _ _).symm
              _ = q.take (commonLen ks p) ++
                  (q.drop (commonLen ks p)).take (p.length - commonLen ks p) := by
                  rw [h1, h2]
              _ = p.take (commonLen ks p) ++ p.drop (commonLen ks p) := by rw [hqt, hqt2]
              _ = p := List.take_append_drop _ _
          simp only [lookupN, hqfull, if_pos rfl]
          exact hqs2

theorem trieWF_dom_nonempty : ∀ (n : Node) (L : Nat), TrieWF n L → n ≠ .empty →
    ∃ q w, lookupN n q = some w := by
  intro n
  induction n with
  | empty =>
    intro L _ h
    exact absurd rfl h
  | leaf k v =>
    intro L _ _
    exact ⟨k, v, by simp [lookupN]⟩
  | branch c val ih =>
    intro L hwf _
    obtain ⟨hval, hL2, ⟨i, j, hi, hj, hij, hne1, hne2⟩, hchWF⟩ := hwf
    obtain ⟨q, w, hq⟩ := ih i (L - 1) (hchWF i hi) hne1
    refine ⟨i :: q, w, ?_⟩
    simp only [lookupN, if_neg (by omega : ¬ i = 16), if_pos hi]
    exact hq
  | ext p sub ih =>
    intro L hwf _
    obtain ⟨hp, hplt, hpl, hsub, hwfsub⟩ := hwf
    have hsubne : sub ≠ .empty := by
      obtain ⟨c, w, rfl⟩ := hsub
      simp
    obtain ⟨q, w, hq⟩ := ih (L - p.length) hwfsub hsubne
    refine ⟨p ++ q, w, ?_⟩
    simp only [lookupN, List.take_left, if_pos rfl, List.drop_left]
    exact hq

theorem walkEnd_reaches_leaf : ∀ (n : Node) (L t : Nat) (ks : List Nat) (v : Str),
    TrieWF n L → goodKey ks → ks.length = L → lookupN n ks = some v → t < L →
    (∀ q w, lookupN n q = some w → q ≠ ks → ks.take t ≠ q.take t) →
    ∃ ke, walkEnd n (ks.take t ++ [16]) = .leaf ke v := by
  intro n
  induction n with
  | empty =>
    intro L t ks v _ _ _ hlk _ _
    simp [lookupN] at hlk
  | leaf k v0 =>
    intro L t ks v _ _ _ hlk _ _
    obtain ⟨hq, hv⟩ := lookupN_leaf_cases hlk
    exact ⟨k, by simp [walkEnd, getPathAt, hv]⟩
  | branch c val ih =>
    intro L t ks v hwf hk hl hlk ht hdiv
    obtain ⟨hval, hL2, ⟨j1, j2, hj1, hj2, hj12, hne1, hne2⟩, hchWF⟩ := hwf
    obtain ⟨i, rest, rfl⟩ : ∃ i rest, ks = i :: rest := by
      cases ks with
      | nil => simp at hl; omega
      | cons i rest => exact ⟨i, rest, rfl⟩
    simp only [List.length_cons] at hl
    have hi : i < 16 ∧ goodKey rest := by
      rcases goodKey_cons hk with ⟨h16, hnil⟩ | hr
      · exfalso
        subst hnil
        simp at hl
        omega
      · exact hr
    have hlk' : lookupN (c i) rest = some v := by
      simp only [lookupN, if_neg (by omega : ¬ i = 16), if_pos hi.1] at hlk
      exact hlk
    cases t with
    | zero =>
      exfalso
      obtain ⟨j, hjlt, hjne, hjnem⟩ : ∃ j, j < 16 ∧ j ≠ i ∧ c j ≠ .empty := by
        by_cases h1 : j1 = i
        · exact ⟨j2, hj2, by omega, hne2⟩
        · exact ⟨j1, hj1, h1, hne1⟩
      obtain ⟨q, w, hq⟩ := trieWF_dom_nonempty (c j) (L - 1) (hchWF j hjlt) hjnem
      have hfull : lookupN (.branch c val) (j :: q) = some w := by
        simp only [lookupN, if_neg (by omega : ¬ j = 16), if_pos hjlt]
        exact hq
      exact hdiv (j :: q) w hfull (by simp [hjne]) (by simp)
    | succ t' =>
      have hstep : (i :: rest).take (t' + 1) ++ [16] = i :: (rest.take t' ++ [16]) := by
        simp
      rw [hstep, walkEnd_branch c val i _ (by omega)]
      apply ih i (L - 1) t' rest v (hchWF i hi.1) hi.2 (by omega) hlk' (by omega)
      intro q w hq hqne he
      have hfull : lookupN (.branch c val) (i :: q) = some w := by
        simp only [lookupN, if_neg (by omega : ¬ i = 16), if_pos hi.1]
        exact hq
      apply hdiv (i :: q) w hfull (by simp [hqne])
      simp [List.take_succ_cons, he]
  | ext p sub ih =>
    intro L t ks v hwf hk hl hlk ht hdiv
    obtain ⟨hp, hplt, hpl, hsub, hwfsub⟩ := hwf
    obtain ⟨hkt, hks⟩ := lookupN_ext_cases hlk
    obtain ⟨cs, vs, rfl⟩ := hsub
    obtain ⟨hvs, hLs2, ⟨j1, j2, hj1, hj2, hj12, hne1, hne2⟩, hsWF⟩ := hwfsub
    have hlen : p.length < ks.length := by omega
    have hdropks := drop_eq_getD_cons hlen
    have hi : ks.getD p.length 0 < 16 := goodKey_getD_lt hk _ (by omega)
    obtain ⟨j, hjlt, hjne, hjnem⟩ : ∃ j, j < 16 ∧ j ≠ ks.getD p.length 0 ∧ cs j ≠ .empty := by
      by_cases h1 : j1 = ks.getD p.length 0
      · exact ⟨j2, hj2, by omega, hne2⟩
      · exact ⟨j1, hj1, h1, hne1⟩
    obtain ⟨qj, wj, hqj⟩ := trieWF_dom_nonempty (cs j) (L - p.length - 1) (hsWF j hjlt) hjnem
    have hq' : lookupN (.ext p (.branch cs vs)) (p ++ j :: qj) = some wj := by
      simp only [lookupN, List.take_left, if_pos rfl, List.drop_left]
      simp only [lookupN, if_neg (by omega : ¬ j = 16), if_pos hjlt]
      exact hqj
    have hkeq : ks = p ++ ks.drop p.length := by
      conv_lhs => rw [← List.take_append_drop p.length ks]
      rw [hkt]
    have hplt' : p.length < t := by
      by_contra hc
      push_neg at hc
      apply hdiv (p ++ j :: qj) wj hq'
      · intro he
        have hd2 := congrArg (List.drop p.length) he
        rw [List.drop_left, hdropks] at hd2
        simp only [List.cons.injEq] at hd2
        exact hjne hd2.1
      · rw [List.take_append_of_le_length hc]
        conv_lhs => rw [hkeq]
        rw [List.take_append_of_le_length hc]
    have hcl : commonLen (ks.take t ++ [16]) p = p.length := by
      apply commonLen_full_right
      rw [List.take_append_of_le_length (by simp [List.length_take]; omega)]
      rw [List.take_take, min_eq_left (by omega), hkt]
    rw [walkEnd_ext _ _ _ hcl]
    have hdrop2 : (ks.take t ++ [16]).drop p.length =
        (ks.drop p.length).take (t - p.length) ++ [16] := by
      rw [List.drop_append_of_le_length (by simp [List.length_take]; omega)]
      congr 1
      rw [List.take_drop]
      have e : p.length + (t - p.length) = t := by omega
      rw [e]
    rw [hdrop2]
    apply ih (L - p.length) (t - p.length) (ks.drop p.length) v
      ⟨hvs, hLs2, ⟨j1, j2, hj1, hj2, hj12, hne1, hne2⟩, hsWF⟩
      (goodKey_drop hk _ (by omega)) (by simp [List.length_drop]; omega) hks (by omega)
    intro q w hq hqne he
    have hfull : lookupN (.ext p (.branch cs vs)) (p ++ q) = some w := by
      simp only [lookupN, List.take_left, if_pos rfl, List.drop_left]
      exact hq
    apply hdiv (p ++ q) w hfull
    · intro h2
      apply hqne
      have := congrArg (List.drop p.length) h2
      rw [List.drop_left] at this
      exact this
    · have e1 : ks.take t = p ++ (ks.drop p.length).take (t - p.length) := by
        conv_lhs => rw [hkeq]
        rw [List.take_append_eq_append_take,
          List.take_of_length_le (show p.length ≤ t by omega)]
      have e2 : (p ++ q).take t = p ++ q.take (t - p.length) := by
        rw [List.take_append_eq_append_take,
          List.take_of_length_le (show p.length ≤ t by omega)]
      rw [e1, e2, he]

theorem foldIns_cons (t : Node) (kv : Bytes × Str) (rest : List (Bytes × Str)) :
    foldIns t (kv :: rest) = foldIns (insertTrie t kv.1 kv.2) rest := rfl

theorem goodKey_ofBytes {bs : Bytes} (hl : bs.length = 32) (hb : ∀ b ∈ bs, b < 256) :
    goodKey (toNibbles bs ++ [16]) ∧ (toNibbles bs ++ [16]).length = 65 :=
  ⟨⟨toNibbles bs, rfl, toNibbles_lt hb⟩, by simp [toNibbles_length, hl]⟩

theorem trieWF_foldIns (l : List (Bytes × Str)) : ∀ (t : Node), TrieWF t 65 →
    (∀ kv ∈ l, kv.1.length = 32 ∧ ∀ b ∈ kv.1, b < 256) →
    TrieWF (foldIns t l) 65 := by
  induction l with
  | nil =>
    intro t h _
    exact h
  | cons kv rest ih =>
    intro t h hall
    rw [foldIns_cons]
    obtain ⟨hg, hlen⟩ := goodKey_ofBytes (hall kv (by simp)).1 (hall kv (by simp)).2
    exact ih _ (trieWF_insertAt t _ kv.2 65 h hg hlen) (fun e he => hall e (by simp [he]))

theorem lookupN_foldIns_of_ne (l : List (Bytes × Str)) : ∀ (t : Node) (q : List Nat) (w : Str),
    TrieWF t 65 → (∀ kv ∈ l, kv.1.length = 32 ∧ ∀ b ∈ kv.1, b < 256) →
    lookupN t q = some w → (∀ kv ∈ l, toNibbles kv.1 ++ [16] ≠ q) →
    lookupN (foldIns t l) q = some w := by
  induction l with
  | nil =>
    intro t q w _ _ hq _
    exact hq
  | cons kv rest ih =>
    intro t q w hwf hall hq hne
    rw [foldIns_cons]
    obtain ⟨hg, hlen⟩ := goodKey_ofBytes (hall kv (by simp)).1 (hall kv (by simp)).2
    apply ih _ q w (trieWF_insertAt t _ kv.2 65 hwf hg hlen)
      (fun e he => hall e (by simp [he]))
    · exact lookupN_insertAt_other t _ kv.2 65 q w hwf hg hlen hq
        (fun he => hne kv (by simp) (by rw [he]))
    · exact fun e he => hne e (by simp [he])

theorem lookupN_foldIns_dom (l : List (Bytes × Str)) : ∀ (t : Node) (q : List Nat) (w : Str),
    TrieWF t 65 → (∀ kv ∈ l, kv.1.length = 32 ∧ ∀ b ∈ kv.1, b < 256) →
    lookupN (foldIns t l) q = some w →
    lookupN t q = some w ∨ ∃ kv ∈ l, toNibbles kv.1 ++ [16] = q := by
  induction l with
  | nil =>
    intro t q w _ _ hq
    exact Or.inl hq
  | cons kv rest ih =>
    intro t q w hwf hall hq
    rw [foldIns_cons] at hq
    obtain ⟨hg, hlen⟩ := goodKey_ofBytes (hall kv (by simp)).1 (hall kv (by simp)).2
    rcases ih _ q w (trieWF_insertAt t _ kv.2 65 hwf hg hlen)
      (fun e he => hall e (by simp [he])) hq with h | ⟨e, he, hee⟩
    · rcases lookupN_insertAt_dom t _ kv.2 65 q w hwf hg hlen h with h2 | h2
      · exact Or.inr ⟨kv, by simp, h2.symm⟩
      · exact Or.inl h2
    · exact Or.inr ⟨e, by simp [he], hee⟩

theorem lookupN_foldIns_at (t : Node) (l1 l2 : List (Bytes × Str)) (kv : Bytes × Str)
    (hwf : TrieWF t 65)
    (hsz : ∀ e ∈ l1 ++ kv :: l2, e.1.length = 32 ∧ ∀ b ∈ e.1, b < 256)
    (hne : ∀ e ∈ l2, toNibbles e.1 ++ [16] ≠ toNibbles kv.1 ++ [16]) :
    lookupN (foldIns t (l1 ++ kv :: l2)) (toNibbles kv.1 ++ [16]) = some kv.2 := by
  have hsplit : foldIns t (l1 ++ kv :: l2) = foldIns (insertTrie (foldIns t l1) kv.1 kv.2) l2 := by
    unfold foldIns
    rw [List.foldl_append, List.foldl_cons]
  rw [hsplit]
  have hwf1 : TrieWF (foldIns t l1) 65 :=
    trieWF_foldIns l1 t hwf (fun e he => hsz e (by simp [he]))
  obtain ⟨hg, hlen⟩ := goodKey_ofBytes (hsz kv (by simp)).1 (hsz kv (by simp)).2
  exact lookupN_foldIns_of_ne l2 _ _ _ (trieWF_insertAt _ _ kv.2 65 hwf1 hg hlen)
    (fun e he => hsz e (by simp [he]))
    (lookupN_insertAt_self _ _ kv.2 65 hwf1 hg hlen) hne

theorem populate_trie_eq_foldIns (hash : Str → Bytes) (a : Assignment) (t : Node) :
    populate_trie hash a t =
      foldIns t ((snapshotEntries a).map (fun e => (hash e.1, chunkVal a e.2))) := by
  unfold populate_trie snapshotEntries foldIns
  generalize a.datasets = dss
  induction dss generalizing t with
  | nil => rfl
  | cons ds rest ih =>
    simp only [List.foldl_cons, List.flatMap_cons, List.map_append, List.foldl_append,
      List.map_map, List.foldl_map]
    rw [ih]
    simp [Function.comp, List.foldl_map]

theorem mem_snapshotEntries {a : Assignment} {ds : Dataset} {ch : Chunk}
    (hds : ds ∈ a.datasets) (hch : ch ∈ ds.chunks) :
    (ds.id ++ '|' :: ch.id, ch) ∈ snapshotEntries a := by
  simp only [snapshotEntries, List.mem_flatMap]
  exact ⟨ds, hds, List.mem_map.mpr ⟨ch, hch, rfl⟩⟩

theorem chunkWorkersSorted_no_bar {a : Assignment} {ch : Chunk}
    (hbar : ∀ w ∈ a.workers, '|' ∉ w) :
    ∀ lw ∈ chunkWorkersSorted a ch, '|' ∉ lw := by
  intro lw hlw
  have hmem : lw ∈ chunkWorkers a ch := List.mem_mergeSort.mp hlw
  obtain ⟨i, hi, rfl⟩ := List.mem_map.mp hmem
  by_cases hlt : i < a.workers.length
  · rw [List.getD_eq_getElem?_getD, List.getElem?_eq_getElem hlt, Option.getD_some]
    exact hbar _ (List.getElem_mem hlt)
  · rw [List.getD_eq_default _ _ (by omega)]
    simp

/-- C1: for every assignment snapshot (under collision-freedom of the
truncated keccak keys on the snapshot's composite key strings),
`make_mpt_proof` on the trie built by `populate_trie` succeeds for every
(dataset, chunk, worker) triple present in the snapshot, and the worker set
decoded from the proof's terminal leaf (its value split on `"|"`) is exactly
the sorted worker-id list of that chunk. -/
theorem trie_roundtrip (hash : Str → Bytes) (a : Assignment)
    (hlen : ∀ e ∈ snapshotEntries a, (hash e.1).length = 32)
    (hbyte : ∀ e ∈ snapshotEntries a, ∀ b ∈ hash e.1, b < 256)
    (hinj : ∀ e1 ∈ snapshotEntries a, ∀ e2 ∈ snapshotEntries a,
      e1.1 ≠ e2.1 → (hash e1.1).take 8 ≠ (hash e2.1).take 8)
    (hnodup : ((snapshotEntries a).map Prod.fst).Nodup)
    (hbar : ∀ w ∈ a.workers, '|' ∉ w)
    (ds : Dataset) (hds : ds ∈ a.datasets) (ch : Chunk) (hch : ch ∈ ds.chunks)
    (w : Str) (hw : w ∈ chunkWorkers a ch) :
    ∃ proof lf payload,
      make_mpt_proof hash (populate_trie hash a .empty) ds.id ch.id w = .ok proof ∧
      proof.getLast? = some lf ∧ rlpValAt1 lf = .ok payload ∧
      payload.splitOn '|' = chunkWorkersSorted a ch := by
  set key := ds.id ++ '|' :: ch.id with hkeydef
  have he : (key, ch) ∈ snapshotEntries a := mem_snapshotEntries hds hch
  set l := (snapshotEntries a).map (fun e => (hash e.1, chunkVal a e.2)) with hldef
  have hsz : ∀ kv ∈ l, kv.1.length = 32 ∧ ∀ b ∈ kv.1, b < 256 := by
    intro kv hkv
    obtain ⟨e2, he2, rfl⟩ := List.mem_map.mp hkv
    exact ⟨hlen e2 he2, hbyte e2 he2⟩
  set kfull := toNibbles (hash key) ++ [16] with hkfull
  have hKeyNe : ∀ e2 ∈ snapshotEntries a, e2.1 ≠ key →
      toNibbles (hash e2.1) ++ [16] ≠ kfull := by
    intro e2 he2 hne heq
    have hnib : toNibbles (hash e2.1) = toNibbles (hash key) :=
      List.append_inj_left heq (by simp [toNibbles_length, hlen e2 he2, hlen _ he])
    have := toNibbles_inj (hbyte e2 he2) (hbyte _ he) hnib
    exact hinj e2 he2 (key, ch) he hne (by rw [this])
  -- the stored value under the full key
  obtain ⟨s1, s2, hsplit⟩ := List.append_of_mem he
  have hkey2 : ∀ e2 ∈ s2, e2.1 ≠ key := by
    intro e2 he2 hcontra
    rw [hsplit] at hnodup
    simp only [List.map_append, List.map_cons] at hnodup
    have h2 := (List.nodup_append.mp hnodup).2.1
    have h3 := (List.nodup_cons.mp h2).1
    exact h3 (List.mem_map.mpr ⟨e2, he2, hcontra⟩)
  have hlmap : l = (s1.map (fun e => (hash e.1, chunkVal a e.2))) ++
      (hash key, chunkVal a ch) :: (s2.map (fun e => (hash e.1, chunkVal a e.2))) := by
    rw [hldef, hsplit]
    simp
  have hWFempty : TrieWF .empty 65 := by simp [TrieWF]
  have hlook : lookupN (foldIns .empty l) kfull = some (chunkVal a ch) := by
    rw [hlmap]
    apply lookupN_foldIns_at _ _ _ _ hWFempty (by rw [← hlmap]; exact hsz)
    intro kv hkv
    obtain ⟨e2, he2, rfl⟩ := List.mem_map.mp hkv
    have he2' : e2 ∈ snapshotEntries a := by
      rw [hsplit]
      simp [he2]
    exact hKeyNe e2 he2' (hkey2 e2 he2)
  have hWF : TrieWF (foldIns .empty l) 65 := trieWF_foldIns l .empty hWFempty hsz
  have htake16 : ∀ bs : Bytes, bs.length = 32 →
      (toNibbles bs ++ [16]).take 16 = toNibbles (bs.take 8) := by
    intro bs hbs
    rw [List.take_append_of_le_length (by rw [toNibbles_length]; omega), toNibbles_take]
  have hdiv : ∀ q w', lookupN (foldIns .empty l) q = some w' → q ≠ kfull →
      kfull.take 16 ≠ q.take 16 := by
    intro q w' hq hqne
    rcases lookupN_foldIns_dom l .empty q w' hWFempty hsz hq with h | ⟨kv, hkv, hkve⟩
    · simp [lookupN] at h
    · obtain ⟨e2, he2, rfl⟩ := List.mem_map.mp hkv
      have hne2 : e2.1 ≠ key := by
        intro hcontra
        apply hqne
        rw [← hkve, hcontra]
      rw [← hkve, htake16 _ (hlen e2 he2), htake16 _ (hlen _ he)]
      intro heq
      apply hinj (key, ch) he e2 he2 (fun h => hne2 h.symm)
      apply toNibbles_inj
      · exact fun b hb => hbyte _ he b (List.mem_of_mem_take hb)
      · exact fun b hb => hbyte e2 he2 b (List.mem_of_mem_take hb)
      · exact heq
  obtain ⟨hg, hglen⟩ := goodKey_ofBytes (hlen _ he) (hbyte _ he)
  obtain ⟨ke, hwalk⟩ := walkEnd_reaches_leaf (foldIns .empty l) 65 16 kfull
    (chunkVal a ch) hWF hg hglen hlook (by omega) hdiv
  have hne_empty : foldIns .empty l ≠ .empty := lookupN_ne_empty hlook
  have hlast : (get_proof (foldIns .empty l) ((hash key).take 8)).getLast? =
      some (.leaf ke (chunkVal a ch)) := by
    rw [get_proof_getLast _ _ hne_empty]
    congr 1
    rw [← hwalk]
    congr 1
    rw [← htake16 _ (hlen _ he)]
  have hsortedne : chunkWorkersSorted a ch ≠ [] :=
    List.ne_nil_of_mem (List.mem_mergeSort.mpr hw)
  have hsplitOn : (chunkVal a ch).splitOn '|' = chunkWorkersSorted a ch := by
    unfold chunkVal
    exact List.splitOn_intercalate (chunkWorkersSorted a ch) '|'
      (chunkWorkersSorted_no_bar hbar) hsortedne
  refine ⟨get_proof (foldIns .empty l) ((hash key).take 8), .leaf ke (chunkVal a ch),
    chunkVal a ch, ?_, ?_, rfl, hsplitOn⟩
  · rw [populate_trie_eq_foldIns, ← hldef]
    simp only [make_mpt_proof, ← hkeydef, hlast]
    simp only [rlpValAt1, hsplitOn]
    rw [if_pos (show w ∈ chunkWorkersSorted a ch from List.mem_mergeSort.mpr hw)]
  · exact hlast

theorem trie_roundtrip_witness :
    ∃ proof lf payload,
      make_mpt_proof c1Hash (populate_trie c1Hash c1Assignment .empty)
        c1Dataset.id c1Chunk.id ("wB".toList) = .ok proof ∧
      proof.getLast? = some lf ∧ rlpValAt1 lf = .ok payload ∧
      payload.splitOn '|' = chunkWorkersSorted c1Assignment c1Chunk :=
  trie_roundtrip c1Hash c1Assignment (by decide) (by decide) (by decide) (by decide)
    (by decide) c1Dataset (by decide) c1Chunk (by decide) ("wB".toList) (by decide)

/-- C10: `get_siblings_queries` computes its window bounds with unguarded
unsigned subtraction (`u64sub`, used by `origQueryPred` and `siblingPred`):
for `ts ≥ range` the bound is the true difference, but for `ts < range` the
subtraction wraps to a value above `ts` instead of clamping the window at
zero, so the sibling window excludes every row at or below `ts`. -/
theorem get_siblings_window_underflow (ts range : Nat) (hts : ts < 2 ^ 64)
    (hrange : range < 2 ^ 64) :
    (range ≤ ts → u64sub ts range = ts - range) ∧
    (ts < range → u64sub ts range = 2 ^ 64 - (range - ts) ∧ ts < u64sub ts range ∧
      ∀ (orig : QueryExecutedRow) (e : LogEntry), e.worker_timestamp ≤ ts →
        siblingPred orig ts range e = false) := by
  constructor
  · intro h
    unfold u64sub
    rw [Nat.mod_eq_of_lt hrange]
    have he : ts + 2 ^ 64 - range = (ts - range) + 2 ^ 64 := by omega
    rw [he, Nat.add_mod_right, Nat.mod_eq_of_lt (by omega)]
  · intro h
    have hval : u64sub ts range = 2 ^ 64 - (range - ts) := by
      unfold u64sub
      rw [Nat.mod_eq_of_lt hrange]
      have he : ts + 2 ^ 64 - range = 2 ^ 64 - (range - ts) := by omega
      rw [he, Nat.mod_eq_of_lt (by omega)]
    refine ⟨hval, by omega, ?_⟩
    intro orig e hwts
    unfold siblingPred
    rw [decide_eq_false (show ¬ u64sub ts range < e.worker_timestamp by omega)]
    simp

theorem get_siblings_window_underflow_witness :
    u64sub 1000 300 = 700 ∧ u64sub 300 3600 = 2 ^ 64 - 3300 ∧ 300 < u64sub 300 3600 := by
  refine ⟨(get_siblings_window_underflow 1000 300 ?_ ?_).1 (by omega),
    ((get_siblings_window_underflow 300 3600 ?_ ?_).2 (by omega)).1,
    ((get_siblings_window_underflow 300 3600 ?_ ?_).2 (by omega)).2.1⟩ <;> norm_num

/-- C9: `make_proof_data` is not total: a missing `from_block` or `to_block`
is an error return, but a missing `last_block` — reached once the block range
is present and the query-signature check passes — is the `unwrap` panic
(modelled as `none`); presence of `last_block` restores totality. -/
theorem make_proof_data_partiality (parsePeer : Str → Option Str)
    (verifyQuery : Query → Str → Str → Bool) (verifyResult : QueryFinished → Bool)
    (row : QueryExecutedRow) (rh ws tr : Bytes) (mp : List Node) :
    (row.last_block.isSome →
      (make_proof_data parsePeer verifyQuery verifyResult row rh ws tr mp).isSome) ∧
    (row.from_block = none →
      make_proof_data parsePeer verifyQuery verifyResult row rh ws tr mp =
        some (.error "fromBlock not found for query")) ∧
    (row.from_block.isSome → row.to_block = none →
      make_proof_data parsePeer verifyQuery verifyResult row rh ws tr mp =
        some (.error "toBlock not found for query")) ∧
    (row.last_block = none → row.from_block.isSome → row.to_block.isSome →
      (parsePeer row.client_id).isSome → (parsePeer row.worker_id).isSome →
      (∀ q c w, verifyQuery q c w = true) →
      make_proof_data parsePeer verifyQuery verifyResult row rh ws tr mp = none) := by
  refine ⟨?_, ?_, ?_, ?_⟩
  · intro hlb
    unfold make_proof_data
    cases hfb : row.from_block with
    | none => simp
    | some fb =>
      cases htb : row.to_block with
      | none => simp
      | some tb =>
        cases hcp : parsePeer row.client_id with
        | none => simp
        | some cp =>
          cases hwp : parsePeer row.worker_id with
          | none => simp
          | some wp =>
            dsimp only
            split
            · cases hlb2 : row.last_block with
              | none => rw [hlb2] at hlb; simp at hlb
              | some lb =>
                dsimp only
                split <;> simp
            · simp
  · intro hfb
    unfold make_proof_data
    rw [hfb]
  · intro hfb htb
    unfold make_proof_data
    cases hfb2 : row.from_block with
    | none => rw [hfb2] at hfb; simp at hfb
    | some fb => rw [htb]
  · intro hlb hfb htb hcp hwp hvq
    unfold make_proof_data
    cases hfb2 : row.from_block with
    | none => rw [hfb2] at hfb; simp at hfb
    | some fb =>
      cases htb2 : row.to_block with
      | none => rw [htb2] at htb; simp at htb
      | some tb =>
        cases hcp2 : parsePeer row.client_id with
        | none => rw [hcp2] at hcp; simp at hcp
        | some cp =>
          cases hwp2 : parsePeer row.worker_id with
          | none => rw [hwp2] at hwp; simp at hwp
          | some wp =>
            dsimp only
            rw [if_pos (hvq _ _ _), hlb]

theorem make_proof_data_partiality_witness :
    make_proof_data (fun s => some s) (fun _ _ _ => true) (fun _ => true)
      (mkRow "q".toList "w".toList 5 (some 1) (some 2) none []) [] [] [] [] = none :=
  (make_proof_data_partiality (fun s => some s) (fun _ _ _ => true) (fun _ => true)
    (mkRow "q".toList "w".toList 5 (some 1) (some 2) none []) [] [] [] []).2.2.2
    rfl (by decide) (by decide) (by decide) (by decide) (fun _ _ _ => rfl)

theorem find?_map_upsert_mem {α : Type} :
    ∀ (m : List (Str × α)) (k : Str) (v : α), m.any (fun e => decide (e.1 = k)) = true →
    (m.map (fun e => if e.1 = k then (k, v) else e)).find? (fun e => decide (e.1 = k)) =
      some (k, v) := by
  intro m k v h
  induction m with
  | nil => simp at h
  | cons e rest ih =>
    simp only [List.map_cons]
    by_cases he : e.1 = k
    · rw [if_pos he]
      simp [List.find?_cons]
    · rw [if_neg he]
      rw [List.find?_cons_of_neg _ (by simpa using he)]
      apply ih
      simp only [List.any_cons, Bool.or_eq_true] at h
      rcases h with h | h
      · exact absurd (by simpa using h) he
      · exact h

theorem find?_append_fresh {α : Type} :
    ∀ (m : List (Str × α)) (k : Str) (v : α), m.any (fun e => decide (e.1 = k)) = false →
    ((m ++ [(k, v)]).find? (fun e => decide (e.1 = k))) = some (k, v) := by
  intro m k v h
  induction m with
  | nil => simp [List.find?_cons]
  | cons e rest ih =>
    simp only [List.any_cons, Bool.or_eq_false_iff] at h
    rw [List.cons_append, List.find?_cons_of_neg _ (by simpa using h.1)]
    exact ih h.2

theorem mapLookup_upsert_self {α : Type} (m : List (Str × α)) (k : Str) (v : α) :
    mapLookup (mapUpsert m k v) k = some v := by
  unfold mapLookup mapUpsert
  split
  · rename_i h
    rw [find?_map_upsert_mem m k v h]
    simp
  · rename_i h
    rw [find?_append_fresh m k v (Bool.eq_false_iff.mpr h)]
    simp

theorem mapLookup_upsert_other {α : Type} (m : List (Str × α)) (k k' : Str) (v : α)
    (h : k' ≠ k) : mapLookup (mapUpsert m k v) k' = mapLookup m k' := by
  unfold mapLookup mapUpsert
  split
  · rename_i hany
    clear hany
    congr 1
    induction m with
    | nil => rfl
    | cons e rest ih =>
      simp only [List.map_cons]
      by_cases he : e.1 = k
      · rw [if_pos he]
        rw [List.find?_cons_of_neg _ (by simpa using Ne.symm h),
          List.find?_cons_of_neg _ (by simp [he]; exact fun hc => h hc.symm)]
        exact ih
      · rw [if_neg he]
        by_cases he' : e.1 = k'
        · rw [List.find?_cons_of_pos _ (by simpa using he'),
            List.find?_cons_of_pos _ (by simpa using he')]
        · rw [List.find?_cons_of_neg _ (by simpa using he'),
            List.find?_cons_of_neg _ (by simpa using he')]
          exact ih
  · congr 1
    rw [List.find?_append]
    have h2 : List.find? (fun e => decide (e.1 = k')) [(k, v)] = none := by
      rw [List.find?_cons_of_neg _ (by simpa using Ne.symm h)]
      rfl
    rw [h2, Option.or_none]

theorem mem_upsert {α : Type} (m : List (Str × α)) (k : Str) (v : α) :
    ∀ e ∈ mapUpsert m k v, e = (k, v) ∨ e ∈ m := by
  intro e he
  unfold mapUpsert at he
  split at he
  · obtain ⟨e2, he2, hee⟩ := List.mem_map.mp he
    by_cases h2 : e2.1 = k
    · rw [if_pos h2] at hee
      exact Or.inl hee.symm
    · rw [if_neg h2] at hee
      exact Or.inr (hee ▸ he2)
  · rcases List.mem_append.mp he with h2 | h2
    · exact Or.inr h2
    · exact Or.inl (by simpa using h2)

theorem collectSig_lookup_isSome : ∀ (rows : List SignatureRow)
    (acc : List (Str × (Bytes × Bytes))) (k : Str),
    ((mapLookup acc k).isSome ∨ ∃ r ∈ rows, r.query_id = k) →
    (mapLookup (collectSig rows acc) k).isSome := by
  intro rows
  induction rows with
  | nil =>
    intro acc k h
    rcases h with h | ⟨r, hr, _⟩
    · exact h
    · simp at hr
  | cons r rest ih =>
    intro acc k h
    unfold collectSig
    apply ih
    by_cases hqk : r.query_id = k
    · left
      rw [hqk, mapLookup_upsert_self]
      rfl
    · rcases h with h | ⟨r2, hr2, hr2k⟩
      · left
        rw [mapLookup_upsert_other _ _ _ _ (fun hc => hqk hc.symm)]
        exact h
      · rcases List.mem_cons.mp hr2 with rfl | hr2'
        · exact absurd hr2k hqk
        · exact Or.inr ⟨r2, hr2', hr2k⟩

theorem collectSig_mem : ∀ (rows : List SignatureRow) (acc : List (Str × (Bytes × Bytes))),
    ∀ e ∈ collectSig rows acc,
    (∃ r ∈ rows, e = (r.query_id, (r.result_hash, r.worker_signature))) ∨ e ∈ acc := by
  intro rows
  induction rows with
  | nil =>
    intro acc e he
    exact Or.inr he
  | cons r rest ih =>
    intro acc e he
    unfold collectSig at he
    rcases ih _ e he with ⟨r2, hr2, hre⟩ | hacc
    · exact Or.inl ⟨r2, by simp [hr2], hre⟩
    · rcases mem_upsert _ _ _ e hacc with he2 | he2
      · exact Or.inl ⟨r, by simp, he2⟩
      · exact Or.inr he2

theorem pluralityOf_isSome (l : List (Bytes × Nat)) (hl : l ≠ []) :
    (pluralityOf l).isSome := by
  have aux : ∀ (l2 : List (Bytes × Nat)) (acc : Option (Bytes × Nat)), acc.isSome →
      (l2.foldl (fun acc e =>
        match acc with
        | none => some e
        | some b => if b.2 ≤ e.2 then some e else some b) acc).isSome := by
    intro l2
    induction l2 with
    | nil => intro acc h; exact h
    | cons e rest ih =>
      intro acc hacc
      rw [List.foldl_cons]
      apply ih
      cases acc with
      | none => simp at hacc
      | some b =>
        dsimp only
        split <;> rfl
  cases l with
  | nil => exact absurd rfl hl
  | cons e rest =>
    unfold pluralityOf
    rw [List.foldl_cons]
    exact aux rest _ rfl

theorem countHashes_ne_nil : ∀ (rows : List SignatureRow) (acc : List (Bytes × Nat)),
    rows ≠ [] ∨ acc ≠ [] → countHashes rows acc ≠ [] := by
  have hbump : ∀ (m : List (Bytes × Nat)) (k : Bytes), bumpCount m k ≠ [] := by
    intro m k
    unfold bumpCount
    split
    · rename_i h
      intro hc
      rw [List.map_eq_nil_iff] at hc
      subst hc
      simp at h
    · simp
  intro rows
  induction rows with
  | nil =>
    intro acc h
    rcases h with h | h
    · exact absurd rfl h
    · exact h
  | cons r rest ih =>
    intro acc _
    unfold countHashes
    exact ih _ (Or.inr (hbump acc r.result_hash))

theorem get_signatures_eq (portal : List SigEntry) (ts range : Nat)
    (eligible : List QueryExecutedRow) (dq : Str) :
    get_signatures portal ts range eligible dq =
      match pluralityOf (countHashes (fetchedSigs portal ts range eligible) []) with
      | none => .error "Plurality not found"
      | some plurality =>
        .ok (collectSig ((fetchedSigs portal ts range eligible).filter
          (fun row => decide (row.result_hash = plurality.1) ||
            decide (row.query_id = dq))) []) := rfl

/-- C4: consensus retention in `get_signatures`: whenever the fetched rows
include the disputed query id, the output map contains an entry for it
regardless of its hash; every retained entry for a non-disputed query id
carries the plurality hash; and with no fetched rows at all the call fails. -/
theorem get_signatures_spec (portal : List SigEntry) (ts range : Nat)
    (eligible : List QueryExecutedRow) (dq : Str) :
    ((∃ r ∈ fetchedSigs portal ts range eligible, r.query_id = dq) →
      ∃ m, get_signatures portal ts range eligible dq = .ok m ∧ (mapLookup m dq).isSome) ∧
    (∀ m, get_signatures portal ts range eligible dq = .ok m →
      ∃ pl, pluralityOf (countHashes (fetchedSigs portal ts range eligible) []) = some pl ∧
        ∀ e ∈ m, e.1 ≠ dq → e.2.1 = pl.1) ∧
    (fetchedSigs portal ts range eligible = [] →
      get_signatures portal ts range eligible dq = .error "Plurality not found") := by
  refine ⟨?_, ?_, ?_⟩
  · intro ⟨r, hr, hrq⟩
    have hne : fetchedSigs portal ts range eligible ≠ [] := List.ne_nil_of_mem hr
    have hcounts := countHashes_ne_nil (fetchedSigs portal ts range eligible) []
      (Or.inl hne)
    have hpl := pluralityOf_isSome _ hcounts
    obtain ⟨pl, hpl2⟩ := Option.isSome_iff_exists.mp hpl
    refine ⟨collectSig ((fetchedSigs portal ts range eligible).filter
      (fun row => decide (row.result_hash = pl.1) || decide (row.query_id = dq))) [],
      ?_, ?_⟩
    · rw [get_signatures_eq, hpl2]
    · apply collectSig_lookup_isSome
      right
      refine ⟨r, ?_, hrq⟩
      apply List.mem_filter.mpr
      refine ⟨hr, ?_⟩
      simp [hrq]
  · intro m hm
    rw [get_signatures_eq] at hm
    cases hpl : pluralityOf (countHashes (fetchedSigs portal ts range eligible) []) with
    | none =>
      rw [hpl] at hm
      simp at hm
    | some pl =>
      rw [hpl] at hm
      simp only [Except.ok.injEq] at hm
      refine ⟨pl, rfl, ?_⟩
      intro e he hedq
      rcases collectSig_mem _ _ e (hm ▸ he) with ⟨r, hr, hre⟩ | hacc
      · have hfilter := (List.mem_filter.mp hr).2
        simp only [Bool.or_eq_true, decide_eq_true_eq] at hfilter
        rcases hfilter with hh | hq
        · rw [hre]
          exact hh
        · exfalso
          apply hedq
          rw [hre]
          exact hq
      · simp at hacc
  · intro hempty
    rw [get_signatures_eq, hempty]
    rfl

theorem get_signatures_spec_witness :
    ∃ m, get_signatures [⟨100, ⟨"q".toList, [1], [2]⟩⟩] 100 50
        [mkRow "q".toList "w".toList 5 (some 1) (some 2) (some 3) []] "q".toList = .ok m ∧
      (mapLookup m "q".toList).isSome :=
  (get_signatures_spec [⟨100, ⟨"q".toList, [1], [2]⟩⟩] 100 50
      [mkRow "q".toList "w".toList 5 (some 1) (some 2) (some 3) []] "q".toList).1
    ⟨⟨"q".toList, [1], [2]⟩, by decide, rfl⟩

theorem fetch_one_filter_map (p : LogEntry → Bool) (logs : List LogEntry) :
    fetch_one ((logs.filter p).map (·.row)) =
      match logs.find? p with
      | none => Except.error "RowNotFound"
      | some e => Except.ok e.row := by
  induction logs with
  | nil => rfl
  | cons e rest ih =>
    rw [List.filter_cons]
    cases h : p e
    · rw [if_neg (by simp [h]), List.find?_cons_of_neg _ (by simp [h])]
      exact ih
    · rw [if_pos (by simp [h]), List.find?_cons_of_pos _ h]
      rfl

/-- C6 counterexample: the window is open, not closed, and ambiguity is not
rejected.  With `ts = 100`, `tolerance = 50`, a lone row at worker timestamp
exactly `ts - tolerance = 50` lies inside the spec's closed interval yet the
lookup fails with `RowNotFound`; and with two matching rows strictly inside
the window the lookup does not fail but returns the first row. -/
theorem get_siblings_step1_cex :
    (u64sub 100 50 ≤ 50 ∧ 50 ≤ u64add 100 50 ∧
      getSiblingsStep1 [⟨50, mkRow "q".toList "w".toList 0 none none none []⟩]
        "q".toList 100 50 = .error "RowNotFound") ∧
    getSiblingsStep1
        [⟨60, mkRow "q".toList "w1".toList 0 none none none []⟩,
         ⟨70, mkRow "q".toList "w2".toList 0 none none none []⟩]
        "q".toList 100 50 =
      .ok (mkRow "q".toList "w1".toList 0 none none none []) := by
  refine ⟨⟨by decide, by decide, ?_⟩, ?_⟩ <;> rfl

/-- C6 (amended): the first step of sibling discovery returns the FIRST
stored log row for the disputed query id whose worker-side timestamp lies
strictly inside the open interval
`(u32cast (ts - tol), u32cast (ts + tol))` (wrapping `u64` bounds truncated
`as u32`), and fails with `RowNotFound` exactly when no such row exists;
extra matching rows are never rejected. -/
theorem get_siblings_step1_first_match (logs : List LogEntry) (query_id : Str)
    (ts tol : Nat) :
    getSiblingsStep1 logs query_id ts tol =
      match logs.find? (fun e =>
          decide (u32cast (u64sub ts tol) < e.worker_timestamp) &&
          decide (e.worker_timestamp < u32cast (u64add ts tol)) &&
          decide (e.row.query_id = query_id)) with
      | none => Except.error "RowNotFound"
      | some e => Except.ok e.row :=
  fetch_one_filter_map (origQueryPred query_id ts tol) logs

theorem eligibleLe_trans (dq : Str) (a b c : QueryExecutedRow)
    (hab : eligibleLe dq a b = true) (hbc : eligibleLe dq b c = true) :
    eligibleLe dq a c = true := by
  by_cases ha : a.query_id = dq
  · simp [eligibleLe, ha]
  · by_cases hb : b.query_id = dq
    · simp [eligibleLe, ha, hb] at hab
    · by_cases hc : c.query_id = dq
      · simp [eligibleLe, hb, hc] at hbc
      · simp only [eligibleLe, ha, hb, hc, if_false, decide_eq_true_eq] at hab hbc ⊢
        omega

theorem eligibleLe_total (dq : Str) (a b : QueryExecutedRow) :
    (eligibleLe dq a b || eligibleLe dq b a) = true := by
  by_cases ha : a.query_id = dq
  · simp [eligibleLe, ha]
  · by_cases hb : b.query_id = dq
    · simp [eligibleLe, ha, hb]
    · simp only [eligibleLe, ha, hb, if_false, Bool.or_eq_true, decide_eq_true_eq]
      omega

/-- C5 counterexample: with two rows carrying the disputed query id the
comparator passed to `sort_by` is not a consistent order, and the claimed
tail ordering fails: on `c5Rows` (already sorted for the comparator, so the
stable sort returns it unchanged) the rows after index 0 have client
timestamps 0 then 5 — increasing, not non-increasing. -/
theorem filter_eligible_cex :
    filter_eligible_queries c5Rows c5Map ("d".toList) = c5Rows ∧
    ¬ ((filter_eligible_queries c5Rows c5Map ("d".toList)).drop 1).Pairwise
        (fun a b => b.client_timestamp ≤ a.client_timestamp) := by
  have hfe : filter_eligible_queries c5Rows c5Map ("d".toList) = c5Rows := by
    unfold filter_eligible_queries
    rw [show c5Rows.filter (fun row => mapContains c5Map row.query_id) = c5Rows from rfl]
    exact List.mergeSort_of_sorted (by decide)
  refine ⟨hfe, ?_⟩
  rw [hfe]
  decide

/-- C5 (amended): the output of `filter_eligible_queries` is a permutation of
the rows whose query id is in the assignment-id map; whenever a row for the
disputed query id is present, the row at index 0 carries the disputed id;
and PROVIDED at most one kept row carries the disputed id, the remaining
rows are non-increasing by client timestamp.  (The unamended tail-ordering
clause fails when several kept rows carry the disputed id, see the
counterexample.) -/
theorem filter_eligible_spec (siblings : List QueryExecutedRow)
    (amap : List (Str × Str)) (dq : Str) :
    (filter_eligible_queries siblings amap dq).Perm
      (siblings.filter (fun row => mapContains amap row.query_id)) ∧
    (∀ r ∈ filter_eligible_queries siblings amap dq, r.query_id = dq →
      ∃ h t, filter_eligible_queries siblings amap dq = h :: t ∧ h.query_id = dq) ∧
    ((siblings.filter (fun row => mapContains amap row.query_id)).countP
        (fun r => decide (r.query_id = dq)) ≤ 1 →
      ((filter_eligible_queries siblings amap dq).drop 1).Pairwise
        (fun a b => b.client_timestamp ≤ a.client_timestamp)) := by
  have hperm : (filter_eligible_queries siblings amap dq).Perm
      (siblings.filter (fun row => mapContains amap row.query_id)) :=
    List.mergeSort_perm _ _
  have hs : (filter_eligible_queries siblings amap dq).Pairwise
      (fun a b => eligibleLe dq a b = true) :=
    List.sorted_mergeSort (eligibleLe_trans dq) (eligibleLe_total dq) _
  refine ⟨hperm, ?_, ?_⟩
  · intro r hr hrdq
    cases hout : filter_eligible_queries siblings amap dq with
    | nil => rw [hout] at hr; cases hr
    | cons h t =>
      refine ⟨h, t, rfl, ?_⟩
      by_contra hh
      rw [hout] at hr hs
      have hrt : r ∈ t := by
        cases List.mem_cons.mp hr with
        | inl he => exact absurd (he ▸ hrdq) hh
        | inr ht => exact ht
      have hle : eligibleLe dq h r = true := (List.pairwise_cons.mp hs).1 r hrt
      simp [eligibleLe, hh, hrdq] at hle
  · intro hcount
    have hco : (filter_eligible_queries siblings amap dq).countP
        (fun r => decide (r.query_id = dq)) ≤ 1 := by
      rw [hperm.countP_eq]; exact hcount
    cases hout : filter_eligible_queries siblings amap dq with
    | nil => simp
    | cons h t =>
      rw [hout] at hs hco
      simp only [List.drop_one, List.tail_cons]
      have hht := (List.pairwise_cons.mp hs).1
      have hp : t.Pairwise (fun a b => eligibleLe dq a b = true) :=
        (List.pairwise_cons.mp hs).2
      refine hp.imp_of_mem ?_
      intro a b hat hbt hab
      by_cases hadq : a.query_id = dq
      · exfalso
        have hhd : h.query_id = dq := by
          by_contra hh
          have := hht a hat
          simp [eligibleLe, hh, hadq] at this
        have h1 : 1 ≤ t.countP (fun r => decide (r.query_id = dq)) :=
          List.countP_pos_iff.mpr ⟨a, hat, by simp [hadq]⟩
        have h2 : t.countP (fun r => decide (r.query_id = dq)) + 1 ≤ 1 := by
          calc t.countP (fun r => decide (r.query_id = dq)) + 1
              = (h :: t).countP (fun r => decide (r.query_id = dq)) := by
                rw [List.countP_cons]; simp [hhd]
            _ ≤ 1 := hco
        omega
      · by_cases hbdq : b.query_id = dq
        · exfalso
          simp [eligibleLe, hadq, hbdq] at hab
        · simpa [eligibleLe, hadq, hbdq] using hab

/-- A closed instance of the amended C5 theorem: a one-row snapshot whose
kept rows contain the disputed id at most once, so the tail ordering holds. -/
theorem filter_eligible_spec_witness :
    ([mkRow "a".toList "w".toList 3 none none none []].filter
        (fun row => mapContains [("a".toList, "i".toList)] row.query_id)).countP
        (fun r => decide (r.query_id = "d".toList)) ≤ 1 ∧
    ((filter_eligible_queries [mkRow "a".toList "w".toList 3 none none none []]
        [("a".toList, "i".toList)] "d".toList).drop 1).Pairwise
      (fun a b => b.client_timestamp ≤ a.client_timestamp) :=
  ⟨by decide,
    (filter_eligible_spec [mkRow "a".toList "w".toList 3 none none none []]
      [("a".toList, "i".toList)] "d".toList).2.2 (by decide)⟩

theorem make_proof_data_worker_id (pp : Str → Option Str)
    (vq : Query → Str → Str → Bool) (vr : QueryFinished → Bool)
    (row : QueryExecutedRow) (rh ws tr : Bytes) (mp : List Node)
    (p : PrivateProofData)
    (h : make_proof_data pp vq vr row rh ws tr mp = some (.ok p)) :
    p.worker_id = row.worker_id := by
  unfold make_proof_data at h
  split at h
  · simp at h
  split at h
  · simp at h
  dsimp only at h
  split at h
  · simp at h
  split at h
  · simp at h
  split at h
  · split at h
    · simp at h
    split at h
    · simp only [Option.some.injEq, Except.ok.injEq] at h
      rw [← h]
    · simp at h
  · simp at h

theorem evidenceStep_usedInv (o : Oracles) (cfg : Config) (amap : List (Str × Str))
    (sigs : List (Str × (Bytes × Bytes))) (st : LoopState) (row : QueryExecutedRow)
    (h : usedInv st) : usedInv (evidenceStep o cfg amap sigs st row) := by
  unfold evidenceStep
  split
  · exact h
  split
  · exact h
  split
  · exact h
  rename_i hused
  split
  · exact h
  rename_i rh_ws hsig
  split
  · exact h
  rename_i aid hamap
  split
  · exact h
  rename_i assignment hfetch
  dsimp only
  split
  · exact h
  rename_i tree_root hroot
  split
  · exact h
  rename_i mpt hmpt
  split
  · exact h
  · exact h
  · rename_i proof hmk
    obtain ⟨hmap, hnd⟩ := h
    have hwid : proof.worker_id = row.worker_id :=
      make_proof_data_worker_id _ _ _ _ _ _ _ _ _ hmk
    have hnm : row.worker_id ∉ st.used := by
      intro hmem
      exact hused (by simpa using hmem)
    constructor
    · simp only [List.map_append, List.map_cons, List.map_nil, hmap, hwid]
    · simp [List.nodup_append, hnd, hnm]

theorem evidenceLoop_usedInv (o : Oracles) (cfg : Config) (amap : List (Str × Str))
    (sigs : List (Str × (Bytes × Bytes))) :
    ∀ (eligible : List QueryExecutedRow) (st : LoopState), usedInv st →
      usedInv (evidenceLoop o cfg amap sigs eligible st) := by
  intro eligible
  induction eligible with
  | nil => intro st h; exact h
  | cons row rest ih =>
    intro st h
    exact ih _ (evidenceStep_usedInv o cfg amap sigs st row h)

/-- C8: within one task's evidence-assembly loop the collected bundles carry
pairwise-distinct worker ids — the loop starts with an empty `used_keys`
set, every successful bundle records its row's worker id there — and any
row whose worker id is already used leaves the loop state untouched
(first-seen-wins). -/
theorem evidence_worker_ids_distinct (o : Oracles) (cfg : Config)
    (amap : List (Str × Str)) (sigs : List (Str × (Bytes × Bytes)))
    (eligible : List QueryExecutedRow) (us : List (TaskStatus × Option String)) :
    ((evidenceLoop o cfg amap sigs eligible ⟨[], [], us, false⟩).proofs.map
        (fun p => p.worker_id)).Nodup ∧
    ∀ st row, st.used.contains row.worker_id = true →
      evidenceStep o cfg amap sigs st row = st := by
  constructor
  · have hinv := evidenceLoop_usedInv o cfg amap sigs eligible ⟨[], [], us, false⟩
      ⟨rfl, List.nodup_nil⟩
    rw [hinv.1]
    exact hinv.2
  · intro st row hc
    unfold evidenceStep
    by_cases h1 : st.panicked = true
    · rw [if_pos h1]
    · rw [if_neg h1]
      by_cases h2 : NUMBER_OF_EVIDENCES_IN_ZK_PROOF ≤ st.proofs.length
      · rw [if_pos h2]
      · rw [if_neg h2, if_pos hc]

/-- C3: the quorum gate: once sibling discovery, assignment resolution,
eligibility filtering and signature consensus have succeeded, fewer than
`NUMBER_OF_EVIDENCES_IN_ZK_PROOF` eligible rows or signature entries send
the task to `Failed` with the insufficient-evidence comment, without the
prover ever being invoked and without a panic. -/
theorem quorum_gate (o : Oracles) (cfg : Config) (task : TaskRec)
    (sib : List QueryExecutedRow) (amap : List (Str × Str))
    (el : List QueryExecutedRow) (sigs : List (Str × (Bytes × Bytes)))
    (hsib : get_siblings_queries o.logs task.query_id task.ts cfg.ts_tolerance
      cfg.ts_search_range = .ok sib)
    (hamap : get_assignment_id_map sib o.getIdByTs [] = .ok amap)
    (hel : filter_eligible_queries sib amap task.query_id = el)
    (hsigs : get_signatures o.portal task.ts cfg.ts_search_range el task.query_id = .ok sigs)
    (hlt : el.length < NUMBER_OF_EVIDENCES_IN_ZK_PROOF ∨
      sigs.length < NUMBER_OF_EVIDENCES_IN_ZK_PROOF) :
    (processTask o cfg task).proverCalls = [] ∧
    (processTask o cfg task).updates.getLast? =
      some (.Failed, some "Not enough evidence to create fraud proof") ∧
    (processTask o cfg task).panicked = false := by
  unfold processTask
  rw [hsib]
  dsimp only
  rw [hamap]
  dsimp only
  rw [hel, hsigs]
  dsimp only
  rw [if_pos hlt]
  refine ⟨rfl, ?_, rfl⟩
  simp [List.getLast?_concat]

theorem c3_hsib : get_siblings_queries c3Logs "q".toList 100 50 60 = .ok [c3Row] := by
  unfold get_siblings_queries
  rw [show getSiblingsStep1 c3Logs "q".toList 100 50 = .ok c3Row from rfl]
  dsimp only
  rw [show (c3Logs.filter (siblingPred c3Row 100 60)).map (fun e => e.row) = [c3Row]
    from rfl]
  have hms : [c3Row].mergeSort (fun a b => lexLeB a.query_id b.query_id) = [c3Row] :=
    List.mergeSort_of_sorted (by simp)
  rw [hms]
  rfl

theorem c3_hamap : get_assignment_id_map [c3Row] c3O.getIdByTs [] =
    .ok [("q".toList, "i".toList)] := rfl

theorem c3_hel : filter_eligible_queries [c3Row] [("q".toList, "i".toList)] "q".toList =
    [c3Row] := by
  unfold filter_eligible_queries
  rw [show [c3Row].filter (fun row => mapContains [("q".toList, "i".toList)] row.query_id)
    = [c3Row] from rfl]
  exact List.mergeSort_of_sorted (by simp)

theorem c3_hsigs : get_signatures c3Portal 100 60 [c3Row] "q".toList =
    .ok [("q".toList, ([8], [9]))] := rfl

/-- A closed instance of the quorum gate: one eligible row (< 5), so the
scenario task fails with the insufficient-evidence comment and no prover
call. -/
theorem quorum_gate_witness :
    (processTask c3O c3Cfg c3Task).proverCalls = [] ∧
    (processTask c3O c3Cfg c3Task).updates.getLast? =
      some (.Failed, some "Not enough evidence to create fraud proof") ∧
    (processTask c3O c3Cfg c3Task).panicked = false :=
  quorum_gate c3O c3Cfg c3Task [c3Row] [("q".toList, "i".toList)] [c3Row]
    [("q".toList, ([8], [9]))] c3_hsib c3_hamap c3_hel c3_hsigs (Or.inl (by decide))

theorem c2_hsib : get_siblings_queries c2O.logs c2Task.query_id c2Task.ts
    c2Cfg.ts_tolerance c2Cfg.ts_search_range = .ok c2Rows := by
  unfold get_siblings_queries
  rw [show getSiblingsStep1 c2O.logs c2Task.query_id c2Task.ts c2Cfg.ts_tolerance
    = .ok (mkRow "a".toList "v".toList 0 (some 1) (some 2) (some 3) [7]) from rfl]
  dsimp only
  rw [show (c2O.logs.filter (siblingPred
      (mkRow "a".toList "v".toList 0 (some 1) (some 2) (some 3) [7])
      c2Task.ts c2Cfg.ts_search_range)).map (fun e => e.row) = c2Rows from rfl]
  have hms : c2Rows.mergeSort (fun a b => lexLeB a.query_id b.query_id) = c2Rows :=
    List.mergeSort_of_sorted (by decide)
  rw [hms]
  rfl

theorem c2_hamap : get_assignment_id_map c2Rows c2O.getIdByTs [] = .ok c2Amap := rfl

theorem c2_hel : filter_eligible_queries c2Rows c2Amap c2Task.query_id = c2Rows := by
  unfold filter_eligible_queries
  rw [show c2Rows.filter (fun row => mapContains c2Amap row.query_id) = c2Rows from rfl]
  exact List.mergeSort_of_sorted (by decide)

theorem c2_hsigs : get_signatures c2O.portal c2Task.ts c2Cfg.ts_search_range c2Rows
    c2Task.query_id = .ok c2Sigs := rfl

/-- The evaluated prover calls of the empty-evidence scenario: the quorum
gate passes, every snapshot download fails, and the prover is invoked once
with the empty bundle list. -/
theorem c2_run_eval : (processTask c2O c2Cfg c2Task).proverCalls = [[]] := by
  unfold processTask
  rw [c2_hsib]
  dsimp only
  rw [c2_hamap]
  dsimp only
  rw [c2_hel, c2_hsigs]
  dsimp only
  rw [if_neg (by decide)]
  rfl

/-- C2 counterexample: a run that passes the quorum gate (five eligible rows,
five consensus signatures) but in which every snapshot download fails during
evidence assembly.  No bundle is assembled, yet the prover IS invoked — with
the empty evidence list, not a quorum-sized one — because `run_loop` calls
`build_zk_proof` unconditionally after the assembly loop. -/
theorem prover_quorum_cex :
    (processTask c2O c2Cfg c2Task).proverCalls = [[]] ∧
    ([] : List PrivateProofData).length < NUMBER_OF_EVIDENCES_IN_ZK_PROOF :=
  ⟨c2_run_eval, by decide⟩

theorem evidenceStep_proofs_le (o : Oracles) (cfg : Config) (amap : List (Str × Str))
    (sigs : List (Str × (Bytes × Bytes))) (st : LoopState) (row : QueryExecutedRow)
    (h : st.proofs.length ≤ NUMBER_OF_EVIDENCES_IN_ZK_PROOF) :
    (evidenceStep o cfg amap sigs st row).proofs.length ≤
      NUMBER_OF_EVIDENCES_IN_ZK_PROOF := by
  unfold evidenceStep
  split
  · exact h
  split
  · exact h
  split
  · exact h
  split
  · exact h
  split
  · exact h
  split
  · exact h
  dsimp only
  split
  · exact h
  split
  · exact h
  rename_i hlen _ _ _ _ _ _ _ _
  split
  · exact h
  · exact h
  · simp only [List.length_append, List.length_cons, List.length_nil]
    omega

theorem evidenceLoop_proofs_le (o : Oracles) (cfg : Config) (amap : List (Str × Str))
    (sigs : List (Str × (Bytes × Bytes))) :
    ∀ (eligible : List QueryExecutedRow) (st : LoopState),
      st.proofs.length ≤ NUMBER_OF_EVIDENCES_IN_ZK_PROOF →
      (evidenceLoop o cfg amap sigs eligible st).proofs.length ≤
        NUMBER_OF_EVIDENCES_IN_ZK_PROOF := by
  intro eligible
  induction eligible with
  | nil => intro st h; exact h
  | cons row rest ih =>
    intro st h
    exact ih _ (evidenceStep_proofs_le o cfg amap sigs st row h)

/-- C2 (amended): the prover is never handed MORE than
`NUMBER_OF_EVIDENCES_IN_ZK_PROOF` bundles — the assembly loop stops at the
quorum size — but it is NOT guaranteed exactly that many: `run_loop` invokes
the prover unconditionally with however many bundles were assembled (see the
counterexample, where it receives zero). -/
theorem prover_call_size_bounded (o : Oracles) (cfg : Config) (task : TaskRec) :
    ∀ l ∈ (processTask o cfg task).proverCalls,
      l.length ≤ NUMBER_OF_EVIDENCES_IN_ZK_PROOF := by
  intro l hl
  unfold processTask at hl
  split at hl
  · simp at hl
  split at hl
  · simp at hl
  dsimp only at hl
  split at hl
  · simp at hl
  split at hl
  · simp at hl
  split at hl
  · simp at hl
  split at hl
  · simp only [List.mem_singleton] at hl
    subst hl
    exact evidenceLoop_proofs_le o cfg _ _ _ _ (by simp)
  · split at hl
    · simp only [List.mem_singleton] at hl
      subst hl
      exact evidenceLoop_proofs_le o cfg _ _ _ _ (by simp)
    · simp only [List.mem_singleton] at hl
      subst hl
      exact evidenceLoop_proofs_le o cfg _ _ _ _ (by simp)

/-- A closed instance of the amended C2 bound, at the empty-evidence run's
one prover call. -/
theorem prover_call_size_bounded_witness :
    ([] : List PrivateProofData).length ≤ NUMBER_OF_EVIDENCES_IN_ZK_PROOF :=
  prover_call_size_bounded c2O c2Cfg c2Task []
    (by rw [c2_run_eval]; exact List.mem_singleton.mpr rfl)

theorem find?_map_keyfix (m : TaskMap) (id id' : Nat)
    (f : Nat × TaskRec → Nat × TaskRec)
    (hf : ∀ e, e.1 ≠ id' → f e = e) (hk : ∀ e, (f e).1 = e.1) (hne : id ≠ id') :
    (m.map f).find? (fun e => decide (e.1 = id)) =
      m.find? (fun e => decide (e.1 = id)) := by
  induction m with
  | nil => rfl
  | cons a rest ih =>
    simp only [List.map_cons]
    by_cases ha : a.1 = id
    · have hfa : f a = a := hf a (by rw [ha]; exact hne)
      rw [hfa, List.find?_cons_of_pos _ (by simp [ha])]
      rw [List.find?_cons_of_pos _ (by simp [ha])]
    · rw [List.find?_cons_of_neg _ (by simp [hk a, ha])]
      rw [List.find?_cons_of_neg _ (by simp [ha])]
      exact ih

theorem lookupTask_setTaskStatus_other (m : TaskMap) (id id' : Nat)
    (st : TaskStatus) (c : Option String) (hne : id ≠ id') :
    lookupTask (setTaskStatus m id' st c) id = lookupTask m id := by
  unfold lookupTask setTaskStatus
  rw [find?_map_keyfix m id id' _ (fun e he => by simp [he])
    (fun e => by by_cases h : e.1 = id' <;> simp [h]) hne]

theorem lookupTask_applyUpdates_other (id id' : Nat) (hne : id ≠ id') :
    ∀ (us : List (TaskStatus × Option String)) (m : TaskMap),
      lookupTask (applyUpdates m id' us) id = lookupTask m id := by
  intro us
  induction us with
  | nil => intro m; rfl
  | cons u rest ih =>
    intro m
    show lookupTask (applyUpdates (setTaskStatus m id' u.1 u.2) id' rest) id = _
    rw [ih, lookupTask_setTaskStatus_other m id id' u.1 u.2 hne]

theorem lookupTask_append_left (m l : TaskMap) (id : Nat) (t : TaskRec)
    (hl : lookupTask m id = some t) : lookupTask (m ++ l) id = some t := by
  unfold lookupTask at hl ⊢
  rw [List.find?_append]
  cases hf : m.find? (fun e => decide (e.1 = id)) with
  | none => rw [hf] at hl; simp at hl
  | some e => rw [hf] at hl; exact hl

theorem lookupTask_eq_of_mem (m : TaskMap) (e : Nat × TaskRec)
    (hkeys : (m.map (fun x => x.1)).Nodup) (he : e ∈ m) :
    lookupTask m e.1 = some e.2 := by
  induction m with
  | nil => cases he
  | cons a rest ih =>
    simp only [List.map_cons, List.nodup_cons] at hkeys
    cases List.mem_cons.mp he with
    | inl h =>
      subst h
      unfold lookupTask
      rw [List.find?_cons_of_pos _ (by simp)]
      rfl
    | inr h =>
      unfold lookupTask
      have hne : a.1 ≠ e.1 := by
        intro hq
        exact hkeys.1 (hq ▸ List.mem_map_of_mem (fun x => x.1) h)
      rw [List.find?_cons_of_neg _ (by simp [hne])]
      exact ih hkeys.2 h

theorem evidenceStep_updates_running (o : Oracles) (cfg : Config)
    (amap : List (Str × Str)) (sigs : List (Str × (Bytes × Bytes)))
    (st : LoopState) (row : QueryExecutedRow)
    (h : ∀ u ∈ st.updates, u.1 = TaskStatus.Running) :
    ∀ u ∈ (evidenceStep o cfg amap sigs st row).updates, u.1 = TaskStatus.Running := by
  unfold evidenceStep
  split
  · exact h
  split
  · exact h
  split
  · exact h
  split
  · exact h
  split
  · exact h
  split
  · exact h
  dsimp only
  split
  · exact h
  split
  · exact h
  split
  · exact h
  · exact h
  · intro u hu
    rcases List.mem_append.mp hu with h1 | h1
    · exact h u h1
    · rw [List.mem_singleton.mp h1]

theorem evidenceLoop_updates_running (o : Oracles) (cfg : Config)
    (amap : List (Str × Str)) (sigs : List (Str × (Bytes × Bytes))) :
    ∀ (el : List QueryExecutedRow) (st : LoopState),
      (∀ u ∈ st.updates, u.1 = TaskStatus.Running) →
      ∀ u ∈ (evidenceLoop o cfg amap sigs el st).updates, u.1 = TaskStatus.Running := by
  intro el
  induction el with
  | nil => intro st h; exact h
  | cons row rest ih =>
    intro st h
    exact ih _ (evidenceStep_updates_running o cfg amap sigs st row h)

theorem processTask_trace (o : Oracles) (cfg : Config) (task : TaskRec) :
    ∀ u ∈ (processTask o cfg task).updates.dropLast, u.1 = TaskStatus.Running := by
  intro u hu
  unfold processTask at hu
  split at hu
  · rw [List.dropLast_concat] at hu
    rw [List.mem_singleton.mp hu]
  split at hu
  · rw [List.dropLast_concat] at hu
    simp only [List.mem_append, List.mem_singleton] at hu
    rcases hu with hu | hu <;> rw [hu]
  dsimp only at hu
  split at hu
  · rw [List.dropLast_concat] at hu
    simp only [List.mem_append, List.mem_singleton] at hu
    rcases hu with (hu | hu) | hu <;> rw [hu]
  split at hu
  · rw [List.dropLast_concat] at hu
    simp only [List.mem_append, List.mem_singleton] at hu
    rcases hu with ((hu | hu) | hu) | hu <;> rw [hu]
  · split at hu
    · exact evidenceLoop_updates_running o cfg _ _ _ _ (by decide) u
        ((List.dropLast_prefix _).subset hu)
    · split at hu
      · rw [List.dropLast_concat] at hu
        exact evidenceLoop_updates_running o cfg _ _ _ _ (by decide) u hu
      · split at hu
        · rw [List.dropLast_concat] at hu
          rcases List.mem_append.mp hu with h1 | h1
          · exact evidenceLoop_updates_running o cfg _ _ _ _ (by decide) u h1
          · rw [List.mem_singleton.mp h1]
        · rw [List.dropLast_concat] at hu
          rcases List.mem_append.mp hu with h1 | h1
          · exact evidenceLoop_updates_running o cfg _ _ _ _ (by decide) u h1
          · rw [List.mem_singleton.mp h1]

/-- C7: a task in a terminal state (`Completed` or `Failed`) is immutable:
provided the map's keys are distinct and each stored task's `id` field equals
its key (both guaranteed by the fresh-UUID insert), an orchestrator iteration
leaves the terminal task's stored record unchanged, a fresh task submission
under any other id leaves it unchanged, and every status a task run writes
before its final one is `Running` (so statuses only advance
Pending → Running → terminal). -/
theorem terminal_status_immutable (o : Oracles) (cfg : Config) (m : TaskMap)
    (id : Nat) (t : TaskRec)
    (hkeys : (m.map (fun e => e.1)).Nodup)
    (hids : ∀ e ∈ m, e.2.id = e.1)
    (hl : lookupTask m id = some t)
    (hterm : t.status = .Completed ∨ t.status = .Failed) :
    lookupTask (iterateLoop o cfg m) id = some t ∧
    (∀ nid qid ts, nid ≠ id → lookupTask (submitTask m nid qid ts) id = some t) ∧
    (∀ task, ∀ u ∈ (processTask o cfg task).updates.dropLast,
      u.1 = TaskStatus.Running) := by
  refine ⟨?_, ?_, fun task => processTask_trace o cfg task⟩
  · unfold iterateLoop
    cases hp : pickPending m with
    | none => exact hl
    | some task' =>
      obtain ⟨e, hfe, he2⟩ : ∃ e, m.find? (fun x => decide (x.2.status = .Pending)) =
          some e ∧ e.2 = task' := by
        unfold pickPending at hp
        cases hf : m.find? (fun x => decide (x.2.status = .Pending)) with
        | none => rw [hf] at hp; simp at hp
        | some e =>
          rw [hf] at hp
          exact ⟨e, rfl, by injection hp⟩
      have hmem := List.mem_of_find?_eq_some hfe
      have hpend : e.2.status = .Pending := by simpa using List.find?_some hfe
      have hid : task'.id = e.1 := by rw [← he2]; exact hids e hmem
      have hne : e.1 ≠ id := by
        intro hq
        have hu := lookupTask_eq_of_mem m e hkeys hmem
        rw [hq, hl] at hu
        have ht2 : t = e.2 := Option.some.inj hu
        rw [ht2, hpend] at hterm
        rcases hterm with h | h <;> cases h
      dsimp only
      rw [hid]
      rw [lookupTask_applyUpdates_other id e.1 (fun hq => hne hq.symm) _ m]
      exact hl
  · intro nid qid ts hne
    unfold submitTask
    by_cases hany : m.any (fun e => decide (e.1 = nid)) = true
    · rw [if_pos hany]
      unfold lookupTask at hl ⊢
      rw [find?_map_keyfix m id nid _ (fun e he => by simp [he])
        (fun e => by by_cases h : e.1 = nid <;> simp [h]) (fun hq => hne hq.symm)]
      exact hl
    · rw [if_neg hany]
      exact lookupTask_append_left m _ id t hl

/-- A closed instance of the terminal-immutability theorem: a one-task map
whose task is `Completed` survives an orchestrator iteration and any fresh
submission under another id. -/
theorem terminal_status_immutable_witness :
    lookupTask (iterateLoop c3O c3Cfg [(0, ⟨0, "q".toList, 5, .Completed, none⟩)]) 0 =
      some ⟨0, "q".toList, 5, .Completed, none⟩ ∧
    (∀ nid qid ts, nid ≠ 0 →
      lookupTask (submitTask [(0, ⟨0, "q".toList, 5, .Completed, none⟩)] nid qid ts) 0 =
        some ⟨0, "q".toList, 5, .Completed, none⟩) ∧
    (∀ task, ∀ u ∈ (processTask c3O c3Cfg task).updates.dropLast,
      u.1 = TaskStatus.Running) :=
  terminal_status_immutable c3O c3Cfg [(0, ⟨0, "q".toList, 5, .Completed, none⟩)] 0
    ⟨0, "q".toList, 5, .Completed, none⟩ (by decide) (by decide) rfl (Or.inl rfl)
